import Mathlib

set_option maxHeartbeats 1000000

/- Shallow embedding of `src/block_profiler.py` (EVM block-range profiler).

   Modelling conventions:
   * Addresses, topic hashes and category names are `String`s, as in the source.
   * Machine integers of the source are unbounded Python ints, so `Nat` is exact.
   * Python `dict` / `collections.Counter` are insertion-ordered association
     lists (`List (String × _)`); in-place increments keep the position of a
     key, new keys are appended, which is exactly CPython dict semantics.
   * `Counter.most_common(n)` is a stable descending sort by count (ties keep
     first-insertion order, as CPython guarantees) followed by `take n`.
   * Fallible RPC calls are oracle functions in a `World` returning `Except`.
   * `decimal.Decimal` with `getcontext().prec = 40` is modelled by
     `decRound40`: round-half-even to 40 significant digits.  Dividing or
     multiplying by the powers of ten `10^18` / `1e9` only shifts the decimal
     exponent, so the wei amount denoted by a summary's ETH string is exactly
     `decRound40` of the wei sum, and reading the string back
     (`int(Decimal(s) * Decimal(10**18))`) recovers that amount exactly. -/

def SIG_TRANSFER : String :=
  "0xddf252ad1be2c89b69c2b068fc378daa952ba7f163c4a11628f55a4df523b3ef"

def SIG_ERC1155_SINGLE : String :=
  "0xc3d58168c5ae7397731d063d5bbf3d657854427343f4c083240f7aacaa2d0f62"

def SIG_ERC1155_BATCH : String :=
  "0x4a39dc06d4c0dbc64b70af90fd698a233a518aa5d07e595d983b8c0526c8f7fb"

/-- Association-list lookup (first match wins), mirroring Python dict lookup. -/
def alookup {β : Type} : List (String × β) → String → Option β
  | [], _ => none
  | (k', v) :: rest, k => if k' = k then some v else alookup rest k

/-- Counter increment: `c[k] += n`.  Present keys are bumped in place, new
keys are appended, as in a CPython `Counter`. -/
def counterAdd : List (String × Nat) → String → Nat → List (String × Nat)
  | [], k, n => [(k, n)]
  | (k', c) :: rest, k, n =>
    if k' = k then (k', c + n) :: rest else (k', c) :: counterAdd rest k n

/-- Set insertion for the `unique_from` / `unique_to` Python sets. -/
def setInsert (s : List String) (a : String) : List String :=
  if a ∈ s then s else s ++ [a]

/-- Stable insertion of `x` before the first `y` with `le x y`. -/
def insertLe {α : Type} (le : α → α → Bool) (x : α) : List α → List α
  | [] => [x]
  | y :: l => if le x y then x :: y :: l else y :: insertLe le x l

/-- Stable insertion sort: the model of Python's stable `sorted`. -/
def sortWith {α : Type} (le : α → α → Bool) : List α → List α
  | [] => []
  | x :: l => insertLe le x (sortWith le l)

/-- Lexicographic strict order on code points, Python's `<` on `str`. -/
def charsLt : List Char → List Char → Bool
  | [], [] => false
  | [], _ :: _ => true
  | _ :: _, [] => false
  | a :: as, b :: bs =>
    if a.toNat < b.toNat then true
    else if b.toNat < a.toNat then false
    else charsLt as bs

def strLtB (a b : String) : Bool := charsLt a.data b.data

/-- ASCII lowercase of one character.  The profiler lowercases only hex
addresses and topic strings, which are ASCII, so this matches Python's
`str.lower` on every input the program handles. -/
def lowerChar (c : Char) : Char :=
  if 65 ≤ c.toNat ∧ c.toNat ≤ 90 then Char.ofNat (c.toNat + 32) else c

/-- Python `str.lower()` (ASCII range). -/
def pyLower (s : String) : String := ⟨s.data.map lowerChar⟩

/-- Comparator for `sorted(..., key=lambda kv: kv[0])`: ascending by key. -/
def keyLe {β : Type} (x y : String × β) : Bool := !(strLtB y.1 x.1)

/-- Comparator for `most_common`: descending by count, stable on ties. -/
def cntLe {β : Type} (x y : β × Nat) : Bool := decide (y.2 ≤ x.2)

/-- Takes the key of the first maximal-count entry: `most_common(1)[0][0]`. -/
def mostCommonTop (c : List (String × Nat)) : Option String :=
  match sortWith cntLe c with
  | [] => none
  | p :: _ => some p.1

/-- Log entry: emitting address, topic list, optional data payload.
`data = none` models an absent field, `some s` the hex string `s`. -/
structure LogEntry where
  address : String
  topics : List String
  data : Option String
deriving DecidableEq

/-- Truthiness test `lg.get("data") and lg["data"] != "0x"` of the source:
payload present, non-empty, and not the empty hex string `0x`. -/
def dataNonEmpty : Option String → Bool
  | none => false
  | some s => if s = "" then false else if s = "0x" then false else true

/-- Running counters of the scan loop in `classify_from_logs`. -/
structure LogScan where
  erc20 : Nat
  erc721 : Nat
  erc1155 : Nat
  tokens : List (String × Nat)
deriving DecidableEq

/-- One iteration of the `for lg in logs` loop of `classify_from_logs`. -/
def scanStep (s : LogScan) (lg : LogEntry) : LogScan :=
  match lg.topics with
  | [] => s
  | t0 :: _ =>
    let t := pyLower t0
    let addr := pyLower lg.address
    if t = SIG_TRANSFER then
      let s1 :=
        if dataNonEmpty lg.data then { s with erc20 := s.erc20 + 1 }
        else { s with erc721 := s.erc721 + 1 }
      if addr = "" then s1 else { s1 with tokens := counterAdd s1.tokens addr 1 }
    else if t = SIG_ERC1155_SINGLE ∨ t = SIG_ERC1155_BATCH then
      let s1 := { s with erc1155 := s.erc1155 + 1 }
      if addr = "" then s1 else { s1 with tokens := counterAdd s1.tokens addr 1 }
    else s

def scanLogs (logs : List LogEntry) : LogScan :=
  logs.foldl scanStep ⟨0, 0, 0, []⟩

/-- Embedding of `classify_from_logs` (src/block_profiler.py lines 72-105).
The spec's token verdict `none` is the sentinel string
`"other_contract_call"` returned when no token log matched. -/
def classify_from_logs (logs : List LogEntry) : String × Option String :=
  let s := scanLogs logs
  let dominant := mostCommonTop s.tokens
  if 0 < s.erc20 ∧ s.erc721 = 0 ∧ s.erc1155 = 0 then ("erc20_transfer", dominant)
  else if 0 < s.erc721 ∧ s.erc20 = 0 ∧ s.erc1155 = 0 then ("erc721_transfer", dominant)
  else if 0 < s.erc1155 ∧ s.erc20 = 0 ∧ s.erc721 = 0 then ("erc1155_transfer", dominant)
  else if 0 < s.erc20 ∨ 0 < s.erc721 ∨ 0 < s.erc1155 then ("mixed_token_activity", dominant)
  else ("other_contract_call", none)

/-- Predicate: the log's first topic is the `Transfer` signature. -/
def isTransferLog (lg : LogEntry) : Bool :=
  match lg.topics with
  | [] => false
  | t0 :: _ => decide (pyLower t0 = SIG_TRANSFER)

def isErc20Log (lg : LogEntry) : Bool :=
  isTransferLog lg && dataNonEmpty lg.data

def isErc721Log (lg : LogEntry) : Bool :=
  isTransferLog lg && !dataNonEmpty lg.data

def isErc1155Log (lg : LogEntry) : Bool :=
  match lg.topics with
  | [] => false
  | t0 :: _ => decide (pyLower t0 = SIG_ERC1155_SINGLE ∨ pyLower t0 = SIG_ERC1155_BATCH)

/-- A log that matches any known token signature (counter-incrementing). -/
def tokenMatch (lg : LogEntry) : Bool :=
  isTransferLog lg || isErc1155Log lg

example : classify_from_logs [] = ("other_contract_call", none) := by decide

example :
    classify_from_logs [⟨"0xA", [SIG_TRANSFER], some "0x01"⟩]
      = ("erc20_transfer", some "0xa") := by decide

example :
    classify_from_logs [⟨"0xA", [SIG_TRANSFER], some "0x"⟩]
      = ("erc721_transfer", some "0xa") := by decide

example :
    classify_from_logs
      [⟨"0xA", [SIG_TRANSFER], some "0x01"⟩, ⟨"0xB", [SIG_ERC1155_SINGLE], some "0x01"⟩]
      = ("mixed_token_activity", some "0xa") := by decide

theorem scanStep_skip (s : LogScan) (lg : LogEntry) (h : tokenMatch lg = false) :
    scanStep s lg = s := by
  unfold tokenMatch isTransferLog isErc1155Log at h
  unfold scanStep
  cases htop : lg.topics with
  | nil => rfl
  | cons t0 ts =>
    rw [htop] at h
    simp only [Bool.or_eq_false_iff, decide_eq_false_iff_not] at h
    simp [h.1, h.2]

theorem scanStep_erc20 (s : LogScan) (lg : LogEntry) :
    (scanStep s lg).erc20 = s.erc20 + (if isErc20Log lg then 1 else 0) := by
  unfold scanStep isErc20Log isTransferLog
  cases htop : lg.topics with
  | nil => simp
  | cons t0 ts =>
    by_cases h1 : pyLower t0 = SIG_TRANSFER
    · by_cases h2 : dataNonEmpty lg.data
      · simp [h1, h2]
        split <;> simp
      · simp [h1, h2]
        split <;> simp
    · by_cases h3 : pyLower t0 = SIG_ERC1155_SINGLE ∨ pyLower t0 = SIG_ERC1155_BATCH
      · simp [h1, h3]
        split <;> simp
      · simp [h1, h3]

theorem scanStep_erc721 (s : LogScan) (lg : LogEntry) :
    (scanStep s lg).erc721 = s.erc721 + (if isErc721Log lg then 1 else 0) := by
  unfold scanStep isErc721Log isTransferLog
  cases htop : lg.topics with
  | nil => simp
  | cons t0 ts =>
    by_cases h1 : pyLower t0 = SIG_TRANSFER
    · by_cases h2 : dataNonEmpty lg.data
      · simp [h1, h2]
        split <;> simp
      · simp [h1, h2]
        split <;> simp
    · by_cases h3 : pyLower t0 = SIG_ERC1155_SINGLE ∨ pyLower t0 = SIG_ERC1155_BATCH
      · simp [h1, h3]
        split <;> simp
      · simp [h1, h3]

theorem scanStep_erc1155 (s : LogScan) (lg : LogEntry) :
    (scanStep s lg).erc1155 = s.erc1155 + (if isErc1155Log lg then 1 else 0) := by
  unfold scanStep isErc1155Log
  cases htop : lg.topics with
  | nil => simp
  | cons t0 ts =>
    by_cases h1 : pyLower t0 = SIG_TRANSFER
    · have hne : ¬(pyLower t0 = SIG_ERC1155_SINGLE ∨ pyLower t0 = SIG_ERC1155_BATCH) := by
        rw [h1]
        decide
      simp [h1, hne]
      split <;> (split <;> simp <;> exact ⟨by decide, by decide⟩)
    · by_cases h3 : pyLower t0 = SIG_ERC1155_SINGLE ∨ pyLower t0 = SIG_ERC1155_BATCH
      · simp [h1, h3]
        split <;> simp
      · simp [h1, h3]

theorem foldl_scan_erc20 (logs : List LogEntry) (s : LogScan) :
    (logs.foldl scanStep s).erc20 = s.erc20 + logs.countP isErc20Log := by
  induction logs generalizing s with
  | nil => simp
  | cons lg rest ih =>
    rw [List.foldl_cons, ih, scanStep_erc20, List.countP_cons]
    by_cases h : isErc20Log lg <;> simp [h] <;> omega

theorem foldl_scan_erc721 (logs : List LogEntry) (s : LogScan) :
    (logs.foldl scanStep s).erc721 = s.erc721 + logs.countP isErc721Log := by
  induction logs generalizing s with
  | nil => simp
  | cons lg rest ih =>
    rw [List.foldl_cons, ih, scanStep_erc721, List.countP_cons]
    by_cases h : isErc721Log lg <;> simp [h] <;> omega

theorem foldl_scan_erc1155 (logs : List LogEntry) (s : LogScan) :
    (logs.foldl scanStep s).erc1155 = s.erc1155 + logs.countP isErc1155Log := by
  induction logs generalizing s with
  | nil => simp
  | cons lg rest ih =>
    rw [List.foldl_cons, ih, scanStep_erc1155, List.countP_cons]
    by_cases h : isErc1155Log lg <;> simp [h] <;> omega

theorem scanLogs_erc20 (logs : List LogEntry) :
    (scanLogs logs).erc20 = logs.countP isErc20Log := by
  simpa using foldl_scan_erc20 logs ⟨0, 0, 0, []⟩

theorem scanLogs_erc721 (logs : List LogEntry) :
    (scanLogs logs).erc721 = logs.countP isErc721Log := by
  simpa using foldl_scan_erc721 logs ⟨0, 0, 0, []⟩

theorem scanLogs_erc1155 (logs : List LogEntry) :
    (scanLogs logs).erc1155 = logs.countP isErc1155Log := by
  simpa using foldl_scan_erc1155 logs ⟨0, 0, 0, []⟩

theorem foldl_scan_skip (logs : List LogEntry) (s : LogScan)
    (h : ∀ lg ∈ logs, tokenMatch lg = false) : logs.foldl scanStep s = s := by
  induction logs generalizing s with
  | nil => rfl
  | cons lg rest ih =>
    rw [List.foldl_cons, scanStep_skip s lg (h lg (by simp))]
    exact ih s fun x hx => h x (by simp [hx])

theorem tokenMatch_false_of_counters (lg : LogEntry)
    (h20 : ¬isErc20Log lg = true) (h721 : ¬isErc721Log lg = true)
    (h1155 : ¬isErc1155Log lg = true) : tokenMatch lg = false := by
  unfold tokenMatch
  cases hT : isTransferLog lg with
  | true =>
    cases hd : dataNonEmpty lg.data with
    | true => exact absurd (by simp [isErc20Log, hT, hd]) h20
    | false => exact absurd (by simp [isErc721Log, hT, hd]) h721
  | false =>
    cases h11 : isErc1155Log lg with
    | true => exact absurd h11 h1155
    | false => simp

theorem scanLogs_zero (logs : List LogEntry)
    (h20 : (scanLogs logs).erc20 = 0) (h721 : (scanLogs logs).erc721 = 0)
    (h1155 : (scanLogs logs).erc1155 = 0) : scanLogs logs = ⟨0, 0, 0, []⟩ := by
  rw [scanLogs_erc20, List.countP_eq_zero] at h20
  rw [scanLogs_erc721, List.countP_eq_zero] at h721
  rw [scanLogs_erc1155, List.countP_eq_zero] at h1155
  exact foldl_scan_skip logs _ fun lg hlg =>
    tokenMatch_false_of_counters lg (h20 lg hlg) (h721 lg hlg) (h1155 lg hlg)

/-- First-seen maximum of a counter: the entry a stable descending sort puts
first, i.e. the earliest entry with the highest count. -/
def pickMax : List (String × Nat) → Option (String × Nat)
  | [] => none
  | p :: rest =>
    match pickMax rest with
    | none => some p
    | some q => if p.2 < q.2 then some q else some p

theorem pickMax_eq_none {l : List (String × Nat)} (h : pickMax l = none) : l = [] := by
  cases l with
  | nil => rfl
  | cons p t =>
    rw [pickMax] at h
    cases hpt : pickMax t <;> rw [hpt] at h <;> simp at h
    split at h <;> simp at h

theorem sortWith_head_pickMax (c : List (String × Nat)) :
    (sortWith cntLe c).head? = pickMax c := by
  induction c with
  | nil => rfl
  | cons p t ih =>
    show (insertLe cntLe p (sortWith cntLe t)).head? = pickMax (p :: t)
    cases hs : sortWith cntLe t with
    | nil =>
      have hpt : pickMax t = none := by rw [← ih, hs]; rfl
      simp [insertLe, pickMax, hpt]
    | cons q rest =>
      have hpt : pickMax t = some q := by rw [← ih, hs]; rfl
      by_cases hq : q.2 ≤ p.2
      · have : ¬p.2 < q.2 := Nat.not_lt.mpr hq
        simp [insertLe, pickMax, hpt, cntLe, hq, this]
      · have hlt : p.2 < q.2 := Nat.lt_of_not_le hq
        simp [insertLe, pickMax, hpt, cntLe, hq, hlt]

theorem mostCommonTop_pickMax (c : List (String × Nat)) :
    mostCommonTop c = (pickMax c).map Prod.fst := by
  unfold mostCommonTop
  have h := sortWith_head_pickMax c
  cases hs : sortWith cntLe c <;> rw [hs] at h <;> rw [← h] <;> rfl

theorem pickMax_spec (c : List (String × Nat)) (k : String) (n : Nat)
    (h : pickMax c = some (k, n)) :
    (∃ l₁ l₂, c = l₁ ++ (k, n) :: l₂ ∧ ∀ p ∈ l₁, p.2 < n) ∧ ∀ p ∈ c, p.2 ≤ n := by
  induction c generalizing k n with
  | nil => cases h
  | cons p t ih =>
    rw [pickMax] at h
    cases hpt : pickMax t with
    | none =>
      have ht : t = [] := pickMax_eq_none hpt
      rw [hpt] at h
      have hp : p = (k, n) := by simpa using h
      subst hp ht
      exact ⟨⟨[], [], rfl, by simp⟩, by simp⟩
    | some q =>
      rw [hpt] at h
      have h2 : (if p.2 < q.2 then some q else some p) = some (k, n) := h
      by_cases hlt : p.2 < q.2
      · rw [if_pos hlt] at h2
        have hq : q = (k, n) := by simpa using h2
        subst hq
        obtain ⟨⟨l₁, l₂, hsplit, hless⟩, hall⟩ := ih _ _ hpt
        refine ⟨⟨p :: l₁, l₂, by simp [hsplit], ?_⟩, ?_⟩
        · intro x hx
          rcases List.mem_cons.mp hx with rfl | hx
          · exact hlt
          · exact hless x hx
        · intro x hx
          rcases List.mem_cons.mp hx with rfl | hx
          · exact Nat.le_of_lt hlt
          · exact hall x hx
      · rw [if_neg hlt] at h2
        have hp : p = (k, n) := by simpa using h2
        subst hp
        obtain ⟨_, hall⟩ := ih _ _ hpt
        refine ⟨⟨[], t, rfl, by simp⟩, ?_⟩
        intro x hx
        rcases List.mem_cons.mp hx with rfl | hx
        · exact Nat.le_refl _
        · exact Nat.le_trans (hall x hx) (Nat.le_of_not_lt hlt)

theorem classify_erc20_branch (logs : List LogEntry)
    (h20 : 0 < (scanLogs logs).erc20) (h721 : (scanLogs logs).erc721 = 0)
    (h1155 : (scanLogs logs).erc1155 = 0) :
    classify_from_logs logs = ("erc20_transfer", mostCommonTop (scanLogs logs).tokens) := by
  unfold classify_from_logs
  rw [if_pos ⟨h20, h721, h1155⟩]

theorem classify_erc721_branch (logs : List LogEntry)
    (h721 : 0 < (scanLogs logs).erc721) (h20 : (scanLogs logs).erc20 = 0)
    (h1155 : (scanLogs logs).erc1155 = 0) :
    classify_from_logs logs = ("erc721_transfer", mostCommonTop (scanLogs logs).tokens) := by
  unfold classify_from_logs
  rw [if_neg (by omega), if_pos ⟨h721, h20, h1155⟩]

theorem classify_erc1155_branch (logs : List LogEntry)
    (h1155 : 0 < (scanLogs logs).erc1155) (h20 : (scanLogs logs).erc20 = 0)
    (h721 : (scanLogs logs).erc721 = 0) :
    classify_from_logs logs = ("erc1155_transfer", mostCommonTop (scanLogs logs).tokens) := by
  unfold classify_from_logs
  rw [if_neg (by omega), if_neg (by omega), if_pos ⟨h1155, h20, h721⟩]

theorem classify_mixed_branch (logs : List LogEntry)
    (h : (0 < (scanLogs logs).erc20 ∧ 0 < (scanLogs logs).erc721)
       ∨ (0 < (scanLogs logs).erc20 ∧ 0 < (scanLogs logs).erc1155)
       ∨ (0 < (scanLogs logs).erc721 ∧ 0 < (scanLogs logs).erc1155)) :
    classify_from_logs logs
      = ("mixed_token_activity", mostCommonTop (scanLogs logs).tokens) := by
  unfold classify_from_logs
  rw [if_neg (by omega), if_neg (by omega), if_neg (by omega), if_pos (by omega)]

theorem classify_none_branch (logs : List LogEntry)
    (h20 : (scanLogs logs).erc20 = 0) (h721 : (scanLogs logs).erc721 = 0)
    (h1155 : (scanLogs logs).erc1155 = 0) :
    classify_from_logs logs = ("other_contract_call", none) := by
  unfold classify_from_logs
  rw [if_neg (by omega), if_neg (by omega), if_neg (by omega), if_neg (by omega)]

theorem classify_dominant (logs : List LogEntry) (h : (scanLogs logs).tokens ≠ []) :
    (classify_from_logs logs).2 = mostCommonTop (scanLogs logs).tokens := by
  by_cases h20 : (scanLogs logs).erc20 = 0
  · by_cases h721 : (scanLogs logs).erc721 = 0
    · by_cases h1155 : (scanLogs logs).erc1155 = 0
      · exact absurd (congrArg LogScan.tokens (scanLogs_zero logs h20 h721 h1155)) h
      · rw [classify_erc1155_branch logs (by omega) h20 h721]
    · by_cases h1155 : (scanLogs logs).erc1155 = 0
      · rw [classify_erc721_branch logs (by omega) h20 h1155]
      · rw [classify_mixed_branch logs (by omega)]
  · by_cases h721 : (scanLogs logs).erc721 = 0
    · by_cases h1155 : (scanLogs logs).erc1155 = 0
      · rw [classify_erc20_branch logs (by omega) h721 h1155]
      · rw [classify_mixed_branch logs (by omega)]
    · rw [classify_mixed_branch logs (by omega)]

/-- Claim C3: `classify_from_logs` counts a Transfer-topic log as ERC-20 when
its data payload is present and non-empty and as ERC-721 otherwise, counts
TransferSingle/TransferBatch first topics as ERC-1155, returns the single
standard's category when exactly one counter is positive, the mixed category
when more than one is positive, and the no-token-verdict sentinel
`("other_contract_call", none)` when all are zero; in particular a singleton
Transfer log with non-empty data is classified ERC-20 and the empty log list
gets no token verdict. -/
theorem claim_C3 (logs : List LogEntry) :
    ((scanLogs logs).erc20 = logs.countP isErc20Log
      ∧ (scanLogs logs).erc721 = logs.countP isErc721Log
      ∧ (scanLogs logs).erc1155 = logs.countP isErc1155Log)
    ∧ (0 < (scanLogs logs).erc20 → (scanLogs logs).erc721 = 0 →
        (scanLogs logs).erc1155 = 0 → (classify_from_logs logs).1 = "erc20_transfer")
    ∧ (0 < (scanLogs logs).erc721 → (scanLogs logs).erc20 = 0 →
        (scanLogs logs).erc1155 = 0 → (classify_from_logs logs).1 = "erc721_transfer")
    ∧ (0 < (scanLogs logs).erc1155 → (scanLogs logs).erc20 = 0 →
        (scanLogs logs).erc721 = 0 → (classify_from_logs logs).1 = "erc1155_transfer")
    ∧ (((0 < (scanLogs logs).erc20 ∧ 0 < (scanLogs logs).erc721)
        ∨ (0 < (scanLogs logs).erc20 ∧ 0 < (scanLogs logs).erc1155)
        ∨ (0 < (scanLogs logs).erc721 ∧ 0 < (scanLogs logs).erc1155)) →
        (classify_from_logs logs).1 = "mixed_token_activity")
    ∧ ((scanLogs logs).erc20 = 0 → (scanLogs logs).erc721 = 0 →
        (scanLogs logs).erc1155 = 0 →
        classify_from_logs logs = ("other_contract_call", none))
    ∧ (∀ a t d, pyLower t = SIG_TRANSFER → dataNonEmpty (some d) = true →
        (classify_from_logs [⟨a, [t], some d⟩]).1 = "erc20_transfer")
    ∧ classify_from_logs [] = ("other_contract_call", none) := by
  refine ⟨⟨scanLogs_erc20 logs, scanLogs_erc721 logs, scanLogs_erc1155 logs⟩,
    ?_, ?_, ?_, ?_, ?_, ?_, by decide⟩
  · intro h1 h2 h3
    rw [classify_erc20_branch logs h1 h2 h3]
  · intro h1 h2 h3
    rw [classify_erc721_branch logs h1 h2 h3]
  · intro h1 h2 h3
    rw [classify_erc1155_branch logs h1 h2 h3]
  · intro h
    rw [classify_mixed_branch logs h]
  · intro h1 h2 h3
    rw [classify_none_branch logs h1 h2 h3]
  · intro a t d ht hd
    have h20 : (scanLogs [⟨a, [t], some d⟩]).erc20 = 1 := by
      rw [scanLogs_erc20]
      simp [List.countP, List.countP.go, isErc20Log, isTransferLog, ht, hd]
    have h721 : (scanLogs [⟨a, [t], some d⟩]).erc721 = 0 := by
      rw [scanLogs_erc721]
      simp [List.countP, List.countP.go, isErc721Log, isTransferLog, ht, hd]
    have h1155 : (scanLogs [⟨a, [t], some d⟩]).erc1155 = 0 := by
      rw [scanLogs_erc1155]
      have : ¬(pyLower t = SIG_ERC1155_SINGLE ∨ pyLower t = SIG_ERC1155_BATCH) := by
        rw [ht]; decide
      simp [List.countP, List.countP.go, isErc1155Log, this]
    rw [classify_erc20_branch [⟨a, [t], some d⟩] (by omega) h721 h1155]

/-- Witness for C3 at a concrete input: one Transfer log with non-empty data
is classified as an ERC-20 transfer. -/
theorem claim_C3_witness :
    (classify_from_logs [⟨"0xA", [SIG_TRANSFER], some "0x01"⟩]).1 = "erc20_transfer" :=
  (claim_C3 [⟨"0xA", [SIG_TRANSFER], some "0x01"⟩]).2.2.2.2.2.2.1
    "0xA" SIG_TRANSFER "0x01" (by decide) (by decide)

/-- Claim C4: the dominant address returned by `classify_from_logs` is the
first-seen emitting address with the highest occurrence count among
token-matching logs, and is `none` when no log matched a token signature. -/
theorem claim_C4 (logs : List LogEntry) :
    ((∀ lg ∈ logs, tokenMatch lg = false) → (classify_from_logs logs).2 = none)
    ∧ ((scanLogs logs).tokens ≠ [] →
        ∃ k n, (classify_from_logs logs).2 = some k
          ∧ (∃ l₁ l₂, (scanLogs logs).tokens = l₁ ++ (k, n) :: l₂ ∧ ∀ p ∈ l₁, p.2 < n)
          ∧ (∀ p ∈ (scanLogs logs).tokens, p.2 ≤ n)) := by
  constructor
  · intro h
    have hz : scanLogs logs = ⟨0, 0, 0, []⟩ := by
      unfold scanLogs
      exact foldl_scan_skip logs _ h
    rw [classify_none_branch logs (by rw [hz]) (by rw [hz]) (by rw [hz])]
  · intro h
    have hd := classify_dominant logs h
    rw [mostCommonTop_pickMax] at hd
    cases hpm : pickMax (scanLogs logs).tokens with
    | none => exact absurd (pickMax_eq_none hpm) h
    | some q =>
      obtain ⟨hsplit, hall⟩ := pickMax_spec _ q.1 q.2 (by rw [hpm])
      exact ⟨q.1, q.2, by rw [hd, hpm]; rfl, hsplit, hall⟩

/-- Witness for C4 at a concrete input: a log list whose only entry does not
match any token signature yields no dominant address. -/
theorem claim_C4_witness :
    (classify_from_logs [⟨"0xA", ["0xdead"], some "0x01"⟩]).2 = none :=
  (claim_C4 [⟨"0xA", ["0xdead"], some "0x01"⟩]).1 (by decide)

/-- Parsed `value` field of a trace node: a hex string parsing to `n`
(`hexOk n`, the default `"0x0"` is `hexOk 0`), a `0x…` string on which
`int(…, 16)` raises (`hexBad`), or a value the `isinstance`/`startswith`
guard rejects so it is skipped (`notHex`). -/
inductive ValField where
  | hexOk (n : Nat)
  | hexBad
  | notHex
deriving DecidableEq

/-- One entry of an Erigon `trace_block` response list. -/
structure TraceEntry where
  typ : String
  value : ValField
deriving DecidableEq

mutual
inductive CallNode where
  | node (value : ValField) (calls : CallForest)
inductive CallForest where
  | nil
  | cons (c : CallNode) (rest : CallForest)
end

/-- One per-transaction element of a `debug_traceBlockByNumber` response:
`txres.get("result") or txres.get("calls") or txres` picks a `result` dict,
else a `calls` list, else the dict itself. -/
inductive TxTraceRes where
  | result (root : CallNode)
  | callsOnly (roots : CallForest)
  | plain (root : CallNode)

/-- Transaction as delivered by the ledger client: the `from` / `to` fields
may be absent (`toAddr` is the source's `tx.to`), `value` / `gasPrice` are
exact integers, `hash` an opaque identifier. -/
structure Tx where
  hash : Nat
  sender : Option String
  toAddr : Option String
  gasPrice : Nat
  value : Nat
deriving DecidableEq

structure Receipt where
  gasUsed : Nat
  logs : List LogEntry
deriving DecidableEq

structure Block where
  number : Nat
  timestamp : Nat
  txs : List Tx
  gasLimit : Nat

/-- The external ledger client: one run's deterministic RPC oracle.  Fallible
calls return `Except Unit`; `Except.error ()` is a raised exception. -/
structure World where
  getBlock : Nat → Block
  getReceipt : Nat → Except Unit Receipt
  getCode : String → Except Unit (Option (List Nat))
  traceErigon : Nat → Except Unit (List TraceEntry)
  traceGeth : Nat → Except Unit (List TxTraceRes)

/-- Embedding of `is_contract` (src lines 65-70): the code bytes must be
present, non-empty and different from the single byte `b"\x00"`; any lookup
error yields `False`. -/
def is_contract (w : World) (address : String) : Bool :=
  match w.getCode address with
  | .error _ => false
  | .ok none => false
  | .ok (some code) =>
    decide (0 < code.length) && decide (code ≠ [0]) && decide (code ≠ [])

/-- Transaction classification block of `profile_chunk` (src lines 200-212),
with the per-address `contract_cache`.  Returns the `(category, token)` pair
and the updated cache. -/
def classify_tx (w : World) (skip_contract_check : Bool)
    (cache : List (String × Bool)) (tx : Tx) (receipt : Receipt) :
    (String × Option String) × List (String × Bool) :=
  match tx.toAddr with
  | none => (("contract_creation", none), cache)
  | some toRaw =>
    let r := classify_from_logs receipt.logs
    if r.1 = "other_contract_call" then
      if 0 < tx.value then (("eth_transfer", r.2), cache)
      else if skip_contract_check = false then
        let addr := pyLower toRaw
        match alookup cache addr with
        | some b =>
          (((if b then "other_contract_call" else "other_eoa_call"), r.2), cache)
        | none =>
          let b := is_contract w addr
          (((if b then "other_contract_call" else "other_eoa_call"), r.2),
            cache ++ [(addr, b)])
      else (("other_contract_call", r.2), cache)
    else (r, cache)

/-- The contract cache only memoizes results of the pure `is_contract`. -/
def cacheOk (w : World) (cache : List (String × Bool)) : Prop :=
  ∀ p ∈ cache, p.2 = is_contract w p.1

theorem alookup_mem {β : Type} {l : List (String × β)} {k : String} {v : β}
    (h : alookup l k = some v) : (k, v) ∈ l := by
  induction l with
  | nil => cases h
  | cons p rest ih =>
    obtain ⟨pk, pv⟩ := p
    rw [alookup] at h
    by_cases hk : pk = k
    · rw [if_pos hk] at h
      have hv : pv = v := Option.some_inj.mp h
      subst hk hv
      exact List.mem_cons_self _ _
    · rw [if_neg hk] at h
      exact List.mem_cons_of_mem _ (ih h)

theorem classify_fst_none (logs : List LogEntry)
    (h : (classify_from_logs logs).1 = "other_contract_call") :
    classify_from_logs logs = ("other_contract_call", none) := by
  by_cases h20 : (scanLogs logs).erc20 = 0
  · by_cases h721 : (scanLogs logs).erc721 = 0
    · by_cases h1155 : (scanLogs logs).erc1155 = 0
      · exact classify_none_branch logs h20 h721 h1155
      · rw [classify_erc1155_branch logs (by omega) h20 h721] at h
        exact absurd h (by decide : ¬("erc1155_transfer" = "other_contract_call"))
    · by_cases h1155 : (scanLogs logs).erc1155 = 0
      · rw [classify_erc721_branch logs (by omega) h20 h1155] at h
        exact absurd h (by decide : ¬("erc721_transfer" = "other_contract_call"))
      · rw [classify_mixed_branch logs (by omega)] at h
        exact absurd h (by decide : ¬("mixed_token_activity" = "other_contract_call"))
  · by_cases h721 : (scanLogs logs).erc721 = 0
    · by_cases h1155 : (scanLogs logs).erc1155 = 0
      · rw [classify_erc20_branch logs (by omega) h721 h1155] at h
        exact absurd h (by decide : ¬("erc20_transfer" = "other_contract_call"))
      · rw [classify_mixed_branch logs (by omega)] at h
        exact absurd h (by decide : ¬("mixed_token_activity" = "other_contract_call"))
    · rw [classify_mixed_branch logs (by omega)] at h
      exact absurd h (by decide : ¬("mixed_token_activity" = "other_contract_call"))

/-- Claim C5: first-match decision order of the transaction classifier.  A
transaction with no recipient is `contract_creation` regardless of logs and
value; a token-log verdict is returned as the category; verdict none with
positive value gives `eth_transfer`; verdict none, zero value and
`skip_contract_check` set gives `other_contract_call` with the contract
cache (hence the code oracle) untouched. -/
theorem claim_C5 (w : World) (skip : Bool) (cache : List (String × Bool))
    (tx : Tx) (receipt : Receipt) :
    (tx.toAddr = none →
      classify_tx w skip cache tx receipt = (("contract_creation", none), cache))
    ∧ (tx.toAddr ≠ none → (classify_from_logs receipt.logs).1 ≠ "other_contract_call" →
        (classify_tx w skip cache tx receipt).1 = classify_from_logs receipt.logs)
    ∧ (tx.toAddr ≠ none → (classify_from_logs receipt.logs).1 = "other_contract_call" →
        0 < tx.value →
        (classify_tx w skip cache tx receipt).1 = ("eth_transfer", none))
    ∧ (tx.toAddr ≠ none → (classify_from_logs receipt.logs).1 = "other_contract_call" →
        tx.value = 0 → skip = true →
        classify_tx w skip cache tx receipt = (("other_contract_call", none), cache)) := by
  refine ⟨?_, ?_, ?_, ?_⟩
  · intro h
    simp only [classify_tx, h]
  · intro hto hv
    cases hta : tx.toAddr with
    | none => exact absurd hta hto
    | some a =>
      simp only [classify_tx, hta]
      rw [if_neg hv]
  · intro hto hv hval
    cases hta : tx.toAddr with
    | none => exact absurd hta hto
    | some a =>
      simp only [classify_tx, hta]
      rw [if_pos hv, if_pos hval]
      have h2 := classify_fst_none receipt.logs hv
      rw [h2]
  · intro hto hv hval hskip
    subst hskip
    cases hta : tx.toAddr with
    | none => exact absurd hta hto
    | some a =>
      simp only [classify_tx, hta]
      rw [if_pos hv, if_neg (by omega : ¬0 < tx.value),
        if_neg (by decide : ¬(true = false))]
      have h2 := classify_fst_none receipt.logs hv
      rw [h2]

def emptyBlock : Block := ⟨0, 0, [], 0⟩

/-- A world whose every RPC call fails. -/
def trivialWorld : World :=
  { getBlock := fun _ => emptyBlock
    getReceipt := fun _ => Except.error ()
    getCode := fun _ => Except.error ()
    traceErigon := fun _ => Except.error ()
    traceGeth := fun _ => Except.error () }

/-- Witness for C5: a concrete recipient-less transaction is classified as a
contract creation. -/
theorem claim_C5_witness :
    classify_tx trivialWorld false [] ⟨1, some "0xS", none, 5, 7⟩ ⟨0, []⟩
      = (("contract_creation", none), []) :=
  (claim_C5 trivialWorld false [] ⟨1, some "0xS", none, 5, 7⟩ ⟨0, []⟩).1 rfl

/-- Claim C6 as amended: with a recipient, token verdict none, zero value and
`skip_contract_check` unset, the classifier consults the (correctly memoized)
contract cache / `is_contract` and returns `other_contract_call` exactly when
the code lookup succeeds with bytes that are present, non-empty and not the
single zero byte `b"\x00"`; empty, absent or single-zero-byte code and any
lookup error give `other_eoa_call`, and the cache stays correctly memoized. -/
theorem claim_C6_amended (w : World) (cache : List (String × Bool)) (tx : Tx)
    (receipt : Receipt) (a : String) (hc : cacheOk w cache)
    (hto : tx.toAddr = some a) (hv : tx.value = 0)
    (hverdict : (classify_from_logs receipt.logs).1 = "other_contract_call") :
    ((classify_tx w false cache tx receipt).1).1
        = (if is_contract w (pyLower a) then "other_contract_call" else "other_eoa_call")
    ∧ (w.getCode (pyLower a) = Except.error () →
        ((classify_tx w false cache tx receipt).1).1 = "other_eoa_call")
    ∧ (∀ code, w.getCode (pyLower a) = Except.ok (some code) → code ≠ [] → code ≠ [0] →
        ((classify_tx w false cache tx receipt).1).1 = "other_contract_call")
    ∧ ((w.getCode (pyLower a) = Except.ok none ∨ w.getCode (pyLower a) = Except.ok (some [])
        ∨ w.getCode (pyLower a) = Except.ok (some [0])) →
        ((classify_tx w false cache tx receipt).1).1 = "other_eoa_call")
    ∧ cacheOk w (classify_tx w false cache tx receipt).2 := by
  have main : (((classify_tx w false cache tx receipt).1).1
        = (if is_contract w (pyLower a) then "other_contract_call" else "other_eoa_call"))
      ∧ cacheOk w (classify_tx w false cache tx receipt).2 := by
    simp only [classify_tx, hto]
    rw [if_pos hverdict, if_neg (by omega : ¬0 < tx.value), if_pos trivial]
    cases hl : alookup cache (pyLower a) with
    | some b =>
      have hb : b = is_contract w (pyLower a) := hc _ (alookup_mem hl)
      constructor
      · simp only [hl]
        rw [hb]
      · simp only [hl]
        exact hc
    | none =>
      constructor
      · simp only [hl]
      · simp only [hl]
        intro p hp
        rcases List.mem_append.mp hp with h1 | h2
        · exact hc p h1
        · rw [List.mem_singleton.mp h2]
  refine ⟨main.1, ?_, ?_, ?_, main.2⟩
  · intro hcode
    have hfalse : is_contract w (pyLower a) = false := by
      simp [is_contract, hcode]
    rw [main.1, hfalse]
    simp
  · intro code hcode hne hne0
    have htrue : is_contract w (pyLower a) = true := by
      simp [is_contract, hcode, List.length_pos, hne, hne0]
    rw [main.1, htrue]
    simp
  · intro hcase
    have hfalse : is_contract w (pyLower a) = false := by
      rcases hcase with h | h | h <;> simp [is_contract, h]
    rw [main.1, hfalse]
    simp

/-- A world whose code lookups always return ordinary contract bytecode. -/
def worldContract : World :=
  { trivialWorld with getCode := fun _ => Except.ok (some [96]) }

/-- Witness for C6 (amended): with recipient code `[0x60]` the transaction is
classified `other_contract_call`. -/
theorem claim_C6_witness :
    ((classify_tx worldContract false [] ⟨1, some "0xs", some "0xB", 0, 0⟩ ⟨0, []⟩).1).1
      = "other_contract_call" :=
  (claim_C6_amended worldContract [] ⟨1, some "0xs", some "0xB", 0, 0⟩ ⟨0, []⟩ "0xB"
    (fun p hp => absurd hp (List.not_mem_nil p)) rfl rfl (by decide)).2.2.1
    [96] rfl (by decide) (by decide)

/-- A world whose code lookups return the single zero byte `b"\x00"`. -/
def worldZeroByte : World :=
  { trivialWorld with getCode := fun _ => Except.ok (some [0]) }

/-- Counterexample to C6 as stated: the recipient's code lookup succeeds with
non-empty code (one byte, `b"\x00"`), yet the transaction is classified
`other_eoa_call`, because `is_contract` additionally rejects `b"\x00"`. -/
theorem claim_C6_counterexample :
    (match worldZeroByte.getCode "0xb" with
      | Except.ok (some code) => code.length
      | _ => 0) = 1
    ∧ ((classify_tx worldZeroByte false [] ⟨1, some "0xs", some "0xB", 0, 0⟩ ⟨0, []⟩).1).1
        = "other_eoa_call" := by
  constructor
  · rfl
  · decide

/-- Wei contribution of a trace `value` field inside the `try` block:
parseable hex adds its value, a bad hex string raises (`error`), anything the
type guard rejects adds nothing. -/
def valContrib : ValField → Except Unit Nat
  | .hexOk n => Except.ok n
  | .hexBad => Except.error ()
  | .notHex => Except.ok 0

/-- The summation loop of `trace_internal_value_erigon`: only entries with
`type == "call"` contribute; the first bad parse raises. -/
def entrySum : List TraceEntry → Except Unit Nat
  | [] => Except.ok 0
  | tr :: rest =>
    if tr.typ = "call" then
      match valContrib tr.value with
      | .error e => Except.error e
      | .ok n =>
        match entrySum rest with
        | .error e => Except.error e
        | .ok t => Except.ok (n + t)
    else entrySum rest

/-- Embedding of `trace_internal_value_erigon` (src lines 108-124): sums the
`value` of all `"call"`-type entries of a `trace_block` response and returns
0 on any retrieval or parsing failure (the whole body is inside `try`). -/
def trace_internal_value_erigon (w : World) (block_number : Nat) : Nat :=
  match w.traceErigon block_number with
  | .error _ => 0
  | .ok traces =>
    match entrySum traces with
    | .error _ => 0
    | .ok total => total

mutual
def walkNode : CallNode → Except Unit Nat
  | .node v cs =>
    match valContrib v with
    | .error e => Except.error e
    | .ok n =>
      match walkForest cs with
      | .error e => Except.error e
      | .ok m => Except.ok (n + m)
def walkForest : CallForest → Except Unit Nat
  | .nil => Except.ok 0
  | .cons c rest =>
    match walkNode c with
    | .error e => Except.error e
    | .ok n =>
      match walkForest rest with
      | .error e => Except.error e
      | .ok m => Except.ok (n + m)
end

/-- Root extraction `txres.get("result") or txres.get("calls") or txres`
followed by the recursive `walk`. -/
def rootSum : TxTraceRes → Except Unit Nat
  | .result root => walkNode root
  | .callsOnly roots => walkForest roots
  | .plain root => walkNode root

def resListSum : List TxTraceRes → Except Unit Nat
  | [] => Except.ok 0
  | r :: rest =>
    match rootSum r with
    | .error e => Except.error e
    | .ok n =>
      match resListSum rest with
      | .error e => Except.error e
      | .ok m => Except.ok (n + m)

/-- Embedding of `trace_internal_value_geth` (src lines 126-154): walks every
node of the per-transaction call trees, summing each node's parseable
`value`, and returns 0 on any retrieval or parsing failure. -/
def trace_internal_value_geth (w : World) (block_number : Nat) : Nat :=
  match w.traceGeth block_number with
  | .error _ => 0
  | .ok calls =>
    match resListSum calls with
    | .error _ => 0
    | .ok total => total

def entryVal : ValField → Nat
  | .hexOk n => n
  | .hexBad => 0
  | .notHex => 0

/-- Total internal value of an Erigon response, stated as the claim states
it: the sum of the values of the `"call"`-type entries. -/
def specErigonTotal (l : List TraceEntry) : Nat :=
  (l.map fun tr => if tr.typ = "call" then entryVal tr.value else 0).sum

mutual
def specNodeTotal : CallNode → Nat
  | .node v cs => entryVal v + specForestTotal cs
def specForestTotal : CallForest → Nat
  | .nil => 0
  | .cons c rest => specNodeTotal c + specForestTotal rest
end

def specResTotal : TxTraceRes → Nat
  | .result root => specNodeTotal root
  | .callsOnly roots => specForestTotal roots
  | .plain root => specNodeTotal root

def specResListTotal (l : List TxTraceRes) : Nat :=
  (l.map specResTotal).sum

mutual
def nodeParseOk : CallNode → Bool
  | .node v cs => !(v == ValField.hexBad) && forestParseOk cs
def forestParseOk : CallForest → Bool
  | .nil => true
  | .cons c rest => nodeParseOk c && forestParseOk rest
end

def resParseOk : TxTraceRes → Bool
  | .result root => nodeParseOk root
  | .callsOnly roots => forestParseOk roots
  | .plain root => nodeParseOk root

theorem entrySum_ok (l : List TraceEntry)
    (h : ∀ tr ∈ l, tr.typ = "call" → tr.value ≠ ValField.hexBad) :
    entrySum l = Except.ok (specErigonTotal l) := by
  induction l with
  | nil => rfl
  | cons tr rest ih =>
    have hrest : entrySum rest = Except.ok (specErigonTotal rest) :=
      ih fun x hx => h x (List.mem_cons_of_mem _ hx)
    rw [entrySum, specErigonTotal]
    by_cases hc : tr.typ = "call"
    · rw [if_pos hc]
      have hv : tr.value ≠ ValField.hexBad := h tr (List.mem_cons_self _ _) hc
      cases hval : tr.value with
      | hexBad => exact absurd hval hv
      | hexOk n => simp [valContrib, hrest, specErigonTotal, hc, entryVal, hval]
      | notHex => simp [valContrib, hrest, specErigonTotal, hc, entryVal, hval]
    · rw [if_neg hc]
      simp [hrest, specErigonTotal, hc]

mutual
theorem walkNode_ok : ∀ c : CallNode, nodeParseOk c = true →
    walkNode c = Except.ok (specNodeTotal c)
  | .node v cs, h => by
    rw [nodeParseOk, Bool.and_eq_true] at h
    have hv : v ≠ ValField.hexBad := by
      have := h.1
      simp only [Bool.not_eq_true'] at this
      exact fun hh => by rw [hh] at this; simp at this
    have hf := walkForest_ok cs h.2
    rw [walkNode, hf, specNodeTotal]
    cases hval : v with
    | hexBad => exact absurd hval hv
    | hexOk n => simp [valContrib, entryVal]
    | notHex => simp [valContrib, entryVal]
theorem walkForest_ok : ∀ f : CallForest, forestParseOk f = true →
    walkForest f = Except.ok (specForestTotal f)
  | .nil, _ => rfl
  | .cons c rest, h => by
    rw [forestParseOk, Bool.and_eq_true] at h
    rw [walkForest, walkNode_ok c h.1, walkForest_ok rest h.2, specForestTotal]
end

theorem rootSum_ok (r : TxTraceRes) (h : resParseOk r = true) :
    rootSum r = Except.ok (specResTotal r) := by
  cases r with
  | result root => exact walkNode_ok root h
  | callsOnly roots => exact walkForest_ok roots h
  | plain root => exact walkNode_ok root h

theorem resListSum_ok (l : List TxTraceRes) (h : ∀ r ∈ l, resParseOk r = true) :
    resListSum l = Except.ok (specResListTotal l) := by
  induction l with
  | nil => rfl
  | cons r rest ih =>
    rw [resListSum, rootSum_ok r (h r (List.mem_cons_self _ _)),
      ih fun x hx => h x (List.mem_cons_of_mem _ hx)]
    simp [specResListTotal]

/-- Claim C10: each internal-value tracer returns the total internally
transferred value of its backend's response (backend-A sums the `"call"`-type
entries of the trace list, backend-B sums every node's value in the call
trees) and returns zero on any retrieval or parsing failure; both embeddings
are total functions, so a tracer failure can never abort the pipeline. -/
theorem claim_C10 (w : World) (bnum : Nat) :
    (w.traceErigon bnum = Except.error () → trace_internal_value_erigon w bnum = 0)
    ∧ (∀ l, w.traceErigon bnum = Except.ok l →
        (∀ tr ∈ l, tr.typ = "call" → tr.value ≠ ValField.hexBad) →
        trace_internal_value_erigon w bnum = specErigonTotal l)
    ∧ (∀ l, w.traceErigon bnum = Except.ok l → entrySum l = Except.error () →
        trace_internal_value_erigon w bnum = 0)
    ∧ (w.traceGeth bnum = Except.error () → trace_internal_value_geth w bnum = 0)
    ∧ (∀ rs, w.traceGeth bnum = Except.ok rs → (∀ r ∈ rs, resParseOk r = true) →
        trace_internal_value_geth w bnum = specResListTotal rs)
    ∧ (∀ rs, w.traceGeth bnum = Except.ok rs → resListSum rs = Except.error () →
        trace_internal_value_geth w bnum = 0) := by
  refine ⟨?_, ?_, ?_, ?_, ?_, ?_⟩
  · intro h
    unfold trace_internal_value_erigon
    rw [h]
  · intro l hl hok
    unfold trace_internal_value_erigon
    simp only [hl, entrySum_ok l hok]
  · intro l hl herr
    unfold trace_internal_value_erigon
    simp only [hl, herr]
  · intro h
    unfold trace_internal_value_geth
    rw [h]
  · intro rs hl hok
    unfold trace_internal_value_geth
    simp only [hl, resListSum_ok rs hok]
  · intro rs hl herr
    unfold trace_internal_value_geth
    simp only [hl, herr]

/-- A world with a concrete Erigon trace list and Geth call tree. -/
def worldTraces : World :=
  { trivialWorld with
    traceErigon := fun _ => Except.ok
      [⟨"call", .hexOk 5⟩, ⟨"reward", .hexOk 9⟩, ⟨"call", .notHex⟩, ⟨"call", .hexOk 2⟩]
    traceGeth := fun _ => Except.ok
      [.result (.node (.hexOk 3) (.cons (.node (.hexOk 4) .nil) .nil)),
        .callsOnly (.cons (.node (.notHex) .nil) .nil),
        .plain (.node (.hexOk 10) .nil)] }

/-- Witness for C10: on concrete responses backend-A sums the call-type
entries (5 + 0 + 2) and backend-B sums every tree node (3 + 4 + 0 + 10). -/
theorem claim_C10_witness :
    trace_internal_value_erigon worldTraces 7 = 7
    ∧ trace_internal_value_geth worldTraces 7 = 17 := by
  constructor
  · exact ((claim_C10 worldTraces 7).2.1 _ rfl (by decide))
  · exact ((claim_C10 worldTraces 7).2.2.2.2.1 _ rfl (by decide))

def DECIMAL_CAP : Nat := 10 ^ 40

/-- Round-half-even of the quotient a / b (banker's rounding, the default
rounding of Python's `decimal` context). -/
def rhe (a b : Nat) : Nat :=
  if 2 * (a % b) < b then a / b
  else if b < 2 * (a % b) then a / b + 1
  else if a / b % 2 = 0 then a / b else a / b + 1

/-- Number of digits of `n` beyond the 40 significant digits the Decimal
context keeps (`getcontext().prec = 40`); fuel-based so it reduces in the
kernel, with fuel `n` itself, far above the digit count. -/
def excessDigits : Nat → Nat → Nat
  | 0, _ => 0
  | fuel + 1, n => if n < DECIMAL_CAP then 0 else excessDigits fuel (n / 10) + 1

/-- The wei amount denoted by a summary's ETH string: `wei_to_eth` divides by
`10^18` in a 40-significant-digit decimal context, which keeps the digit
string of `n` rounded half-even to 40 significant digits (the power-of-ten
division and the later `int(Decimal(s) * Decimal(10**18))` read-back only
shift the exponent and are exact). -/
def decRound40 (n : Nat) : Nat :=
  let e := excessDigits n n
  if e = 0 then n else rhe n (10 ^ e) * 10 ^ e

/-- Per-category accumulator of `profile_chunk` (the `TxStats` dataclass). -/
structure TxStats where
  count : Nat
  gas_used : Nat
  gas_price_wei_sum : Nat
  eth_value_wei_sum : Nat
deriving DecidableEq

def TxStats.zero : TxStats := ⟨0, 0, 0, 0⟩

def TxStats.addTx (s : TxStats) (gasUsed gasPrice value : Nat) : TxStats :=
  ⟨s.count + 1, s.gas_used + gasUsed, s.gas_price_wei_sum + gasPrice,
    s.eth_value_wei_sum + value⟩

/-- The `tx_type_stats[tx_type]` defaultdict access followed by the four
`stats.x += ...` updates. -/
def statsUpdate : List (String × TxStats) → String → Nat → Nat → Nat →
    List (String × TxStats)
  | [], k, g, p, v => [(k, TxStats.zero.addTx g p v)]
  | (k', s) :: rest, k, g, p, v =>
    if k' = k then (k', s.addTx g p v) :: rest
    else (k', s) :: statsUpdate rest k g p v

/-- Mutable state of one `profile_chunk` call.  `processed` is the list of
block numbers fetched by the block loop (observable needed to state the
transaction-cap claim); the source does not store it explicitly but it is
exactly the set of `w3.eth.get_block` calls made. -/
structure ChunkState where
  stats : List (String × TxStats)
  unique_from : List String
  unique_to : List String
  total_eth : Nat
  total_tx : Nat
  top_contracts : List (String × Nat)
  top_tokens : List (String × Nat)
  cache : List (String × Bool)
  processed : List Nat

def initChunkState : ChunkState := ⟨[], [], [], 0, 0, [], [], [], []⟩

/-- The `total_tx >= tx_cap` break condition. -/
def capReached (cap : Option Nat) (n : Nat) : Bool :=
  match cap with
  | none => false
  | some c => decide (c ≤ n)

/-- Fold of one successfully fetched (transaction, receipt) pair into the
chunk state: the body of the `for fut in as_completed(...)` loop after the
receipt arrives (src lines 190-226). -/
def foldOne (w : World) (skip : Bool) (st : ChunkState) (tx : Tx)
    (receipt : Receipt) : ChunkState :=
  let uf := match tx.sender with
    | some s => if s = "" then st.unique_from else setInsert st.unique_from (pyLower s)
    | none => st.unique_from
  let ut := match tx.toAddr with
    | some s => if s = "" then st.unique_to else setInsert st.unique_to (pyLower s)
    | none => st.unique_to
  let res := classify_tx w skip st.cache tx receipt
  let tc := match tx.toAddr with
    | some s => if s = "" then st.top_contracts else counterAdd st.top_contracts (pyLower s) 1
    | none => st.top_contracts
  let tt := match res.1.2 with
    | some s => if s = "" then st.top_tokens else counterAdd st.top_tokens (pyLower s) 1
    | none => st.top_tokens
  { stats := statsUpdate st.stats res.1.1 receipt.gasUsed tx.gasPrice tx.value
    unique_from := uf
    unique_to := ut
    total_eth := st.total_eth + tx.value
    total_tx := st.total_tx + 1
    top_contracts := tc
    top_tokens := tt
    cache := res.2
    processed := st.processed }

/-- The receipt loop of one block: transactions are folded in arrival order,
failed fetches are skipped (`except: continue`), and the loop breaks as soon
as the running `total_tx` reaches the cap. -/
def foldTxs (w : World) (skip : Bool) (cap : Option Nat) :
    List Tx → ChunkState → ChunkState
  | [], st => st
  | tx :: rest, st =>
    match w.getReceipt tx.hash with
    | .error _ => foldTxs w skip cap rest st
    | .ok receipt =>
      let st' := foldOne w skip st tx receipt
      if capReached cap st'.total_tx then st' else foldTxs w skip cap rest st'

/-- The block loop of `profile_chunk`: fetch each block, fold its
transactions, and stop after any block that reached the cap. -/
def chunkBlocks (w : World) (skip : Bool) (cap : Option Nat) :
    List Nat → ChunkState → ChunkState
  | [], st => st
  | b :: rest, st =>
    let st' := foldTxs w skip cap (w.getBlock b).txs
      { st with processed := st.processed ++ [b] }
    if capReached cap st'.total_tx then st' else chunkBlocks w skip cap rest st'

/-- The inclusive block range `range(start, end + 1)`. -/
def blockNums (s e : Nat) : List Nat := List.range' s (e + 1 - s)

def traceBlockVal (w : World) (tm : String) (b : Nat) : Nat :=
  if tm = "erigon" then trace_internal_value_erigon w b
  else if tm = "geth" then trace_internal_value_geth w b
  else 0

/-- The optional tracing pass of `profile_chunk`: runs over the full block
range regardless of the transaction cap. -/
def internalTotal (w : World) (tm : String) (s e : Nat) : Nat :=
  if tm = "" ∨ tm = "none" then 0
  else ((blockNums s e).map (traceBlockVal w tm)).sum

/-- One `tx_types` entry of a summary.  `avg_gas_price_q` is the quantized
average gas price in units of `0.0001` gwei (`= 10^5` wei), the exact value
denoted by the `avg_gas_price_gwei` decimal string; `eth_value_wei` is the
wei amount denoted by the `eth_value_sum_eth` string. -/
structure TypeEntry where
  count : Nat
  gas_used : Nat
  avg_gas_price_q : Nat
  eth_value_wei : Nat
deriving DecidableEq

/-- The `avg_gas_price_gwei` computation
`(Decimal(sum) / Decimal(max(count,1)) / Decimal(1e9)).quantize(Decimal("0.0001"))`
in units of `0.0001` gwei: round-half-even of `sum / (count * 10^5)`.  The
40-significant-digit intermediate is exact at every magnitude the theorems
below constrain; the `if v.count else "0"` arm is the `count = 0` case. -/
def avgGasQ (priceSum count : Nat) : Nat :=
  if count = 0 then 0 else rhe priceSum (count * 100000)

def mkTypeEntry (s : TxStats) : TypeEntry :=
  ⟨s.count, s.gas_used, avgGasQ s.gas_price_wei_sum s.count,
    decRound40 s.eth_value_wei_sum⟩

/-- Summary record: the JSON dict produced by `profile_chunk` and
`profile_range` (monetary strings represented by the wei amounts they
denote; the out-of-scope `chain_id` / `notes` / `limits` echo fields are
omitted). `unique_senders` / `unique_receivers` are `Int` because
`profile_range` emits the sentinel `-1` for them. -/
structure Summary where
  start_block : Nat
  end_block : Nat
  block_count : Nat
  total_tx : Nat
  unique_senders : Int
  unique_receivers : Int
  total_eth_wei : Nat
  internal_wei : Nat
  tx_types : List (String × TypeEntry)
  top_contracts : List (String × Nat)
  top_tokens : List (String × Nat)
deriving DecidableEq

def mkSummary (s e : Nat) (st : ChunkState) (internal : Nat) : Summary :=
  { start_block := s
    end_block := e
    block_count := e - s + 1
    total_tx := st.total_tx
    unique_senders := (st.unique_from.length : Int)
    unique_receivers := (st.unique_to.length : Int)
    total_eth_wei := decRound40 st.total_eth
    internal_wei := decRound40 internal
    tx_types := (sortWith keyLe st.stats).map fun p => (p.1, mkTypeEntry p.2)
    top_contracts := (sortWith cntLe st.top_contracts).take 20
    top_tokens := (sortWith cntLe st.top_tokens).take 20 }

def chunkRun (w : World) (s e : Nat) (skip : Bool) (cap : Option Nat) : ChunkState :=
  chunkBlocks w skip cap (blockNums s e) initChunkState

/-- Embedding of `profile_chunk` (src lines 157-273), minus the optional CSV
sink, which only mirrors per-block counts and is not part of the summary. -/
def profile_chunk (w : World) (s e : Nat) (skip : Bool) (cap : Option Nat)
    (tm : String) : Summary :=
  mkSummary s e (chunkRun w s e skip cap) (internalTotal w tm s e)

/-- Accumulators of the merge loop in `profile_range`. -/
structure MergeAcc where
  agg : List (String × TxStats)
  top_contracts : List (String × Nat)
  top_tokens : List (String × Nat)
  total_eth : Nat
  internal : Nat
  total_tx : Nat

def MergeAcc.init : MergeAcc := ⟨[], [], [], 0, 0, 0⟩

/-- One iteration of `for k, v in chunk["tx_types"].items()`: counts and gas
add exactly; the gas-price sum is reconstructed from the rounded average as
`int(Decimal(str(avg)) * Decimal(1e9) * Decimal(count))
 = avg_q * 10^5 * count`; the value sum is read back from the ETH string. -/
def aggUpdate : List (String × TxStats) → String → TypeEntry →
    List (String × TxStats)
  | [], k, en =>
    [(k, ⟨en.count, en.gas_used, en.avg_gas_price_q * 100000 * en.count,
      en.eth_value_wei⟩)]
  | (k', s) :: rest, k, en =>
    if k' = k then
      (k', ⟨s.count + en.count, s.gas_used + en.gas_used,
        s.gas_price_wei_sum + en.avg_gas_price_q * 100000 * en.count,
        s.eth_value_wei_sum + en.eth_value_wei⟩) :: rest
    else (k', s) :: aggUpdate rest k en

/-- Folding one chunk summary into the overall accumulators
(src lines 342-356). -/
def mergeOne (acc : MergeAcc) (c : Summary) : MergeAcc :=
  { agg := c.tx_types.foldl (fun m p => aggUpdate m p.1 p.2) acc.agg
    top_contracts := c.top_contracts.foldl (fun m p => counterAdd m p.1 p.2) acc.top_contracts
    top_tokens := c.top_tokens.foldl (fun m p => counterAdd m p.1 p.2) acc.top_tokens
    total_eth := acc.total_eth + c.total_eth_wei
    internal := acc.internal + c.internal_wei
    total_tx := acc.total_tx + c.total_tx }

/-- The `while cur <= end` chunk partition of `profile_range`, fuel-based so
it reduces in the kernel.  For `cs ≥ 1` the fuel `e + 1 - cur` is ample.
(For `cs = 0` the Python loop would not terminate; no claim concerns it.) -/
def chunkList : Nat → Nat → Nat → Nat → List (Nat × Nat)
  | 0, _, _, _ => []
  | fuel + 1, cur, e, cs =>
    if cur ≤ e then
      (cur, min (cur + cs - 1) e) :: chunkList fuel (min (cur + cs - 1) e + 1) e cs
    else []

def rangeChunks (s e cs : Nat) : List (Nat × Nat) := chunkList (e + 1 - s) s e cs

/-- Embedding of `profile_range` (src lines 275-382), minus the out-of-scope
CSV/JSON file sinks, the connectivity check and the `end < start` ValueError
(theorems state `s ≤ e` where relevant).  As in the source, the overall
`unique_senders` / `unique_receivers` stay the sentinel `-1`, and the overall
`tx_types` dict is rebuilt by the same comprehension as each chunk's, from
the merged (partly reconstructed) sums. -/
def profile_range (w : World) (s e : Nat) (skip : Bool) (cap : Option Nat)
    (cs : Nat) (tm : String) : Summary :=
  let summaries := (rangeChunks s e cs).map fun p => profile_chunk w p.1 p.2 skip cap tm
  let acc := summaries.foldl mergeOne MergeAcc.init
  { start_block := s
    end_block := e
    block_count := e - s + 1
    total_tx := acc.total_tx
    unique_senders := -1
    unique_receivers := -1
    total_eth_wei := decRound40 acc.total_eth
    internal_wei := decRound40 acc.internal
    tx_types := (sortWith keyLe acc.agg).map fun p => (p.1, mkTypeEntry p.2)
    top_contracts := (sortWith cntLe acc.top_contracts).take 20
    top_tokens := (sortWith cntLe acc.top_tokens).take 20 }

theorem rhe_exact (n b : Nat) (hb : 0 < b) : rhe (n * b) b = n := by
  unfold rhe
  have hq : n * b / b = n := Nat.mul_div_cancel n hb
  have hr : n * b % b = 0 := Nat.mul_mod_left n b
  rw [hq, hr]
  simp [hb]

theorem rhe_dvd (a b : Nat) (hb : 0 < b) (h : b ∣ a) : rhe a b * b = a := by
  obtain ⟨n, rfl⟩ := h
  rw [Nat.mul_comm b n, rhe_exact n b hb]

theorem rhe_le (a b : Nat) : rhe a b ≤ a / b + 1 := by
  unfold rhe
  split
  · omega
  · split
    · omega
    · split <;> omega

theorem rhe_bounds (a b : Nat) (hb : 0 < b) :
    2 * (rhe a b) * b ≤ 2 * a + b ∧ 2 * a ≤ 2 * (rhe a b) * b + b := by
  unfold rhe
  generalize hq : a / b = q
  generalize hr : a % b = r
  have hdm : q * b + r = a := by
    rw [← hq, ← hr]
    exact Nat.div_add_mod' a b
  have hlt : r < b := by
    rw [← hr]
    exact Nat.mod_lt a hb
  subst hdm
  split
  · constructor <;> nlinarith
  · split
    · constructor <;> nlinarith
    · split <;> constructor <;> nlinarith

theorem excessDigits_small (fuel n : Nat) (h : n < DECIMAL_CAP) :
    excessDigits fuel n = 0 := by
  cases fuel with
  | zero => rfl
  | succ f => rw [excessDigits, if_pos h]

theorem excessDigits_spec (fuel n : Nat) (hf : n ≤ fuel) :
    n / 10 ^ excessDigits fuel n < DECIMAL_CAP
    ∧ (excessDigits fuel n = 0 ∨ DECIMAL_CAP ≤ n / 10 ^ (excessDigits fuel n - 1)) := by
  induction fuel generalizing n with
  | zero =>
    have : n = 0 := Nat.le_zero.mp hf
    subst this
    refine ⟨by simpa [excessDigits] using Nat.pos_pow_of_pos 40 (by norm_num), Or.inl rfl⟩
  | succ f ih =>
    rw [excessDigits]
    by_cases h : n < DECIMAL_CAP
    · rw [if_pos h]
      simpa using h
    · rw [if_neg h]
      have hcap : 10 ≤ n := by
        have : 10 ≤ DECIMAL_CAP := by norm_num [DECIMAL_CAP]
        omega
      have hfuel : n / 10 ≤ f := by
        have h1 : n / 10 < n := Nat.div_lt_self (by omega) (by norm_num)
        omega
      obtain ⟨ih1, ih2⟩ := ih (n / 10) hfuel
      have hdd : ∀ k : Nat, n / 10 / 10 ^ k = n / 10 ^ (k + 1) := by
        intro k
        rw [Nat.div_div_eq_div_mul, Nat.pow_succ, Nat.mul_comm (10 ^ k) 10]
      constructor
      · rw [← hdd]
        exact ih1
      · right
        have hgoal : excessDigits f (n / 10) + 1 - 1 = excessDigits f (n / 10) := by omega
        rw [hgoal]
        cases he : excessDigits f (n / 10) with
        | zero =>
          simpa using Nat.not_lt.mp h
        | succ e =>
          rcases ih2 with h0 | hge
          · rw [he] at h0
            exact absurd h0 (Nat.succ_ne_zero e)
          · rw [he] at hge
            have h1 : e + 1 - 1 = e := by omega
            rw [h1, hdd e] at hge
            exact hge

theorem decRound40_id (n : Nat) (h : n < DECIMAL_CAP) : decRound40 n = n := by
  simp only [decRound40]
  rw [excessDigits_small n n h]
  simp

theorem decRound40_fix (q e : Nat) (hq : q < DECIMAL_CAP) :
    decRound40 (q * 10 ^ e) = q * 10 ^ e := by
  set m := q * 10 ^ e with hm
  simp only [decRound40]
  cases he : excessDigits m m with
  | zero => simp
  | succ e0 =>
    have hspec := excessDigits_spec m m (Nat.le_refl m)
    rw [he] at hspec
    obtain ⟨h1, h2⟩ := hspec
    rcases h2 with h0 | hge
    · exact absurd h0 (Nat.succ_ne_zero e0)
    · have he0 : e0 + 1 - 1 = e0 := by omega
      rw [he0] at hge
      have hqm : m / 10 ^ e = q := by
        rw [hm]
        exact Nat.mul_div_cancel q (Nat.pos_pow_of_pos e (by norm_num))
      have hle : e0 + 1 ≤ e := by
        by_contra hcon
        have hee : e ≤ e0 := by omega
        have hmono : m / 10 ^ e0 ≤ m / 10 ^ e :=
          Nat.div_le_div_left (Nat.pow_le_pow_right (by norm_num) hee)
            (Nat.pos_pow_of_pos e (by norm_num))
        omega
      have hdvd : (10 : Nat) ^ (e0 + 1) ∣ m := by
        rw [hm]
        exact (pow_dvd_pow 10 hle).mul_left q
      rw [if_neg (Nat.succ_ne_zero e0)]
      exact rhe_dvd m _ (Nat.pos_pow_of_pos _ (by norm_num)) hdvd

theorem decRound40_shape (n : Nat) :
    ∃ q e, decRound40 n = q * 10 ^ e ∧ q < DECIMAL_CAP := by
  simp only [decRound40]
  cases he : excessDigits n n with
  | zero =>
    have hspec := (excessDigits_spec n n (Nat.le_refl n)).1
    rw [he] at hspec
    simp only [pow_zero, Nat.div_one] at hspec
    exact ⟨n, 0, by simp, hspec⟩
  | succ e0 =>
    have hspec := (excessDigits_spec n n (Nat.le_refl n)).1
    rw [he] at hspec
    by_cases hcap : rhe n (10 ^ (e0 + 1)) = DECIMAL_CAP
    · refine ⟨1, 40 + (e0 + 1), ?_, by norm_num [DECIMAL_CAP]⟩
      rw [if_neg (Nat.succ_ne_zero e0), hcap]
      show DECIMAL_CAP * 10 ^ (e0 + 1) = 1 * 10 ^ (40 + (e0 + 1))
      rw [DECIMAL_CAP, pow_add]
      ring
    · have hle := rhe_le n (10 ^ (e0 + 1))
      have hlt : rhe n (10 ^ (e0 + 1)) < DECIMAL_CAP := by omega
      exact ⟨rhe n (10 ^ (e0 + 1)), e0 + 1, by rw [if_neg (Nat.succ_ne_zero e0)], hlt⟩

theorem decRound40_idem (n : Nat) : decRound40 (decRound40 n) = decRound40 n := by
  obtain ⟨q, e, heq, hq⟩ := decRound40_shape n
  rw [heq, decRound40_fix q e hq]

theorem insertLe_perm {α : Type} (le : α → α → Bool) (x : α) (l : List α) :
    (insertLe le x l).Perm (x :: l) := by
  induction l with
  | nil => exact List.Perm.refl _
  | cons y t ih =>
    rw [insertLe]
    split
    · exact List.Perm.refl _
    · exact (ih.cons y).trans (List.Perm.swap x y t)

theorem sortWith_perm {α : Type} (le : α → α → Bool) (l : List α) :
    (sortWith le l).Perm l := by
  induction l with
  | nil => exact List.Perm.refl _
  | cons x t ih => exact (insertLe_perm le x (sortWith le t)).trans (ih.cons x)

/-- Sorted for a Bool comparator: each adjacent pair satisfies `le`. -/
def SortedB {α : Type} (le : α → α → Bool) (l : List α) : Prop :=
  List.Chain' (fun a b => le a b = true) l

theorem insertLe_sorted {α : Type} (le : α → α → Bool)
    (htot : ∀ x y, le x y = true ∨ le y x = true) (x : α) (l : List α)
    (hs : SortedB le l) : SortedB le (insertLe le x l) := by
  induction l with
  | nil => simp [insertLe, SortedB]
  | cons y t ih =>
    rw [insertLe]
    split
    · rename_i hxy
      refine List.chain'_cons'.mpr ⟨?_, hs⟩
      intro b hb
      simp only [List.head?_cons, Option.mem_def, Option.some_inj] at hb
      rw [← hb]
      exact hxy
    · rename_i hxy
      have hyx : le y x = true := by
        rcases htot x y with h | h
        · exact absurd h hxy
        · exact h
      have ht : SortedB le t := (List.chain'_cons'.mp hs).2
      refine List.chain'_cons'.mpr ⟨?_, ih ht⟩
      intro b hb
      cases t with
      | nil =>
        simp only [insertLe, List.head?_cons, Option.mem_def, Option.some_inj] at hb
        rw [← hb]
        exact hyx
      | cons z t2 =>
        rw [insertLe] at hb
        split at hb
        · simp only [List.head?_cons, Option.mem_def, Option.some_inj] at hb
          rw [← hb]
          exact hyx
        · simp only [List.head?_cons, Option.mem_def, Option.some_inj] at hb
          rw [← hb]
          exact (List.chain'_cons'.mp hs).1 z rfl

theorem sortWith_sorted {α : Type} (le : α → α → Bool)
    (htot : ∀ x y, le x y = true ∨ le y x = true) (l : List α) :
    SortedB le (sortWith le l) := by
  induction l with
  | nil => simp [sortWith, SortedB]
  | cons x t ih => exact insertLe_sorted le htot x (sortWith le t) ih

theorem sortWith_sorted_id {α : Type} (le : α → α → Bool) (l : List α)
    (hs : SortedB le l) : sortWith le l = l := by
  induction l with
  | nil => rfl
  | cons x t ih =>
    have ht : SortedB le t := (List.chain'_cons'.mp hs).2
    rw [sortWith, ih ht]
    cases t with
    | nil => rfl
    | cons y t2 =>
      rw [insertLe, if_pos ((List.chain'_cons'.mp hs).1 y rfl)]

theorem cntLe_total {β : Type} : ∀ x y : β × Nat, cntLe x y = true ∨ cntLe y x = true := by
  intro x y
  unfold cntLe
  rcases Nat.le_total y.2 x.2 with h | h
  · left
    simpa using h
  · right
    simpa using h

theorem charsLt_asymm : ∀ as bs : List Char, charsLt as bs = true → charsLt bs as = false := by
  intro as
  induction as with
  | nil =>
    intro bs h
    cases bs with
    | nil => simpa [charsLt] using h
    | cons b t => simp [charsLt]
  | cons a t ih =>
    intro bs h
    cases bs with
    | nil => simp [charsLt] at h
    | cons b t2 =>
      rw [charsLt] at h ⊢
      by_cases h1 : a.toNat < b.toNat
      · rw [if_neg (by omega), if_pos h1]
      · rw [if_neg h1] at h
        by_cases h2 : b.toNat < a.toNat
        · rw [if_pos h2] at h
          cases h
        · rw [if_neg h2] at h
          rw [if_neg h2, if_neg h1]
          exact ih t2 h

theorem keyLe_total {β : Type} :
    ∀ x y : String × β, keyLe x y = true ∨ keyLe y x = true := by
  intro x y
  unfold keyLe
  by_cases h : strLtB y.1 x.1 = true
  · right
    have := charsLt_asymm _ _ h
    simp [strLtB] at this ⊢
    simpa [strLtB] using this
  · left
    simp only [Bool.not_eq_true] at h
    rw [h]
    rfl

theorem alookup_map_val {β γ : Type} (f : β → γ) (l : List (String × β)) (k : String) :
    alookup (l.map fun p => (p.1, f p.2)) k = (alookup l k).map f := by
  induction l with
  | nil => rfl
  | cons p rest ih =>
    simp only [List.map_cons, alookup]
    split
    · rfl
    · exact ih

theorem alookup_eq_none {β : Type} (l : List (String × β)) (k : String) :
    alookup l k = none ↔ k ∉ l.map Prod.fst := by
  induction l with
  | nil => simp [alookup]
  | cons p rest ih =>
    rw [alookup]
    by_cases hk : p.1 = k
    · simp [hk]
    · simp only [if_neg hk, List.map_cons, List.mem_cons, ih]
      constructor
      · intro h hc
        rcases hc with hc | hc
        · exact hk hc.symm
        · exact h hc
      · intro h hc
        exact h (Or.inr hc)

theorem alookup_of_mem {β : Type} {l : List (String × β)} {k : String} {v : β}
    (hnd : (l.map Prod.fst).Nodup) (hm : (k, v) ∈ l) : alookup l k = some v := by
  induction l with
  | nil => cases hm
  | cons p rest ih =>
    rw [alookup]
    rcases List.mem_cons.mp hm with heq | hmem
    · rw [← heq]
      simp
    · by_cases hk : p.1 = k
      · exfalso
        have hkin : k ∈ rest.map Prod.fst :=
          List.mem_map.mpr ⟨(k, v), hmem, rfl⟩
        rw [List.map_cons, List.nodup_cons] at hnd
        exact hnd.1 (hk ▸ hkin)
      · rw [if_neg hk]
        exact ih (List.nodup_cons.mp (by simpa using hnd)).2 hmem

theorem alookup_perm {β : Type} {l l' : List (String × β)} (h : l.Perm l')
    (hnd : (l.map Prod.fst).Nodup) (k : String) : alookup l k = alookup l' k := by
  have hnd' : (l'.map Prod.fst).Nodup := ((h.map Prod.fst).nodup_iff).mp hnd
  cases hv : alookup l k with
  | some v =>
    exact (alookup_of_mem hnd' (h.mem_iff.mp (alookup_mem hv))).symm
  | none =>
    have hk : k ∉ l.map Prod.fst := (alookup_eq_none l k).mp hv
    have hk' : k ∉ l'.map Prod.fst := fun hc => hk (((h.map Prod.fst).mem_iff).mpr hc)
    exact ((alookup_eq_none l' k).mpr hk').symm

def statsGet (m : List (String × TxStats)) (k : String) : TxStats :=
  (alookup m k).getD TxStats.zero

def TxStats.plus (a b : TxStats) : TxStats :=
  ⟨a.count + b.count, a.gas_used + b.gas_used,
    a.gas_price_wei_sum + b.gas_price_wei_sum,
    a.eth_value_wei_sum + b.eth_value_wei_sum⟩

theorem TxStats.plus_zero (a : TxStats) : a.plus TxStats.zero = a := by
  cases a
  simp [TxStats.plus, TxStats.zero]

theorem TxStats.zero_plus (a : TxStats) : TxStats.zero.plus a = a := by
  cases a
  simp [TxStats.plus, TxStats.zero]

theorem TxStats.plus_assoc (a b c : TxStats) :
    (a.plus b).plus c = a.plus (b.plus c) := by
  cases a
  cases b
  cases c
  simp [TxStats.plus]
  omega

theorem TxStats.addTx_eq_plus (a : TxStats) (g p v : Nat) :
    a.addTx g p v = a.plus ⟨1, g, p, v⟩ := rfl

theorem statsUpdate_get (m : List (String × TxStats)) (k0 : String)
    (g p v : Nat) (k : String) :
    statsGet (statsUpdate m k0 g p v) k
      = if k = k0 then (statsGet m k).addTx g p v else statsGet m k := by
  induction m with
  | nil =>
    by_cases hk : k = k0
    · subst hk
      simp [statsUpdate, statsGet, alookup]
    · have hk' : ¬k0 = k := fun h => hk h.symm
      simp [statsUpdate, statsGet, alookup, hk, hk']
  | cons q rest ih =>
    rw [statsUpdate]
    by_cases hq : q.1 = k0
    · rw [if_pos hq]
      by_cases hk : k = k0
      · subst hk
        simp [statsGet, alookup, hq]
      · have hqk : ¬q.1 = k := fun hc => hk (hc ▸ hq)
        simp [statsGet, alookup, hqk, hk]
    · rw [if_neg hq]
      by_cases hqk : q.1 = k
      · have hk : ¬k = k0 := fun hc => hq (hqk.trans hc)
        simp [statsGet, alookup, hqk, hk]
      · simp only [statsGet, alookup, if_neg hqk]
        exact ih

theorem statsUpdate_mem (m : List (String × TxStats)) (k0 : String)
    (g p v : Nat) (k : String) :
    k ∈ (statsUpdate m k0 g p v).map Prod.fst
      ↔ (k ∈ m.map Prod.fst ∨ k = k0) := by
  induction m with
  | nil => simp [statsUpdate, eq_comm]
  | cons q rest ih =>
    rw [statsUpdate]
    by_cases hq : q.1 = k0
    · rw [if_pos hq]
      subst hq
      simp only [List.map_cons, List.mem_cons]
      constructor
      · intro h
        exact Or.inl h
      · intro h
        rcases h with h | h
        · exact h
        · exact Or.inl (by rw [h])
    · rw [if_neg hq]
      simp only [List.map_cons, List.mem_cons, ih]
      tauto

theorem statsUpdate_nodup (m : List (String × TxStats)) (k0 : String)
    (g p v : Nat) (hnd : (m.map Prod.fst).Nodup) :
    ((statsUpdate m k0 g p v).map Prod.fst).Nodup := by
  induction m with
  | nil => simp [statsUpdate]
  | cons q rest ih =>
    rw [statsUpdate]
    rw [List.map_cons, List.nodup_cons] at hnd
    by_cases hq : q.1 = k0
    · rw [if_pos hq]
      simpa using hnd
    · rw [if_neg hq]
      rw [List.map_cons, List.nodup_cons]
      refine ⟨?_, ih hnd.2⟩
      intro hc
      rcases (statsUpdate_mem rest k0 g p v q.1).mp hc with h | h
      · exact hnd.1 h
      · exact hq h

theorem statsUpdate_pos (m : List (String × TxStats)) (k0 : String)
    (g p v : Nat) (hpos : ∀ q ∈ m, 0 < q.2.count) :
    ∀ q ∈ statsUpdate m k0 g p v, 0 < q.2.count := by
  induction m with
  | nil =>
    intro q hq
    rw [statsUpdate] at hq
    rcases List.mem_singleton.mp hq with rfl
    simp [TxStats.zero, TxStats.addTx]
  | cons r rest ih =>
    intro q hq
    rw [statsUpdate] at hq
    by_cases hr : r.1 = k0
    · rw [if_pos hr] at hq
      rcases List.mem_cons.mp hq with rfl | hmem
      · have := hpos r (List.mem_cons_self _ _)
        simp [TxStats.addTx]
      · exact hpos q (List.mem_cons_of_mem _ hmem)
    · rw [if_neg hr] at hq
      rcases List.mem_cons.mp hq with rfl | hmem
      · exact hpos r (List.mem_cons_self _ _)
      · exact ih (fun x hx => hpos x (List.mem_cons_of_mem _ hx)) q hmem

/-- Pure per-transaction classification: `classify_tx` with an empty cache
consults `is_contract` directly. -/
theorem classify_tx_trans (w : World) (skip : Bool) (cache : List (String × Bool))
    (tx : Tx) (r : Receipt) (hc : cacheOk w cache) :
    (classify_tx w skip cache tx r).1 = (classify_tx w skip [] tx r).1
    ∧ cacheOk w (classify_tx w skip cache tx r).2 := by
  cases hta : tx.toAddr with
  | none =>
    simp only [classify_tx, hta]
    exact ⟨by simp, hc⟩
  | some a =>
    simp only [classify_tx, hta]
    by_cases hv : (classify_from_logs r.logs).1 = "other_contract_call"
    · rw [if_pos hv, if_pos hv]
      by_cases hval : 0 < tx.value
      · rw [if_pos hval, if_pos hval]
        exact ⟨by simp, hc⟩
      · rw [if_neg hval, if_neg hval]
        cases skip with
        | true =>
          rw [if_neg (by decide : ¬(true = false)), if_neg (by decide : ¬(true = false))]
          exact ⟨by simp, hc⟩
        | false =>
          rw [if_pos rfl, if_pos rfl]
          cases hl : alookup cache (pyLower a) with
          | some b =>
            have hb : b = is_contract w (pyLower a) := hc _ (alookup_mem hl)
            simp only [hl, alookup]
            rw [hb]
            exact ⟨by simp, hc⟩
          | none =>
            simp only [hl, alookup]
            refine ⟨by simp, ?_⟩
            intro p hp
            rcases List.mem_append.mp hp with h1 | h2
            · exact hc p h1
            · rw [List.mem_singleton.mp h2]
    · rw [if_neg hv, if_neg hv]
      exact ⟨by simp, hc⟩

def rOk (w : World) (tx : Tx) : Bool :=
  match w.getReceipt tx.hash with
  | .ok _ => true
  | .error _ => false

def okCount (w : World) (l : List Tx) : Nat := l.countP (rOk w)

/-- Category a transaction will be folded under (with the pure classifier),
or `none` when its receipt fetch fails. -/
def catOf (w : World) (skip : Bool) (tx : Tx) : Option String :=
  match w.getReceipt tx.hash with
  | .error _ => none
  | .ok r => some ((classify_tx w skip [] tx r).1).1

def txGas (w : World) (tx : Tx) : Nat :=
  match w.getReceipt tx.hash with
  | .error _ => 0
  | .ok r => r.gasUsed

def catCount (w : World) (skip : Bool) (k : String) (l : List Tx) : Nat :=
  l.countP fun tx => decide (catOf w skip tx = some k)

def catGas (w : World) (skip : Bool) (k : String) (l : List Tx) : Nat :=
  (l.map fun tx => if catOf w skip tx = some k then txGas w tx else 0).sum

def catPrice (w : World) (skip : Bool) (k : String) (l : List Tx) : Nat :=
  (l.map fun tx => if catOf w skip tx = some k then tx.gasPrice else 0).sum

def catValue (w : World) (skip : Bool) (k : String) (l : List Tx) : Nat :=
  (l.map fun tx => if catOf w skip tx = some k then tx.value else 0).sum

def valSum (w : World) (l : List Tx) : Nat :=
  (l.map fun tx => if rOk w tx then tx.value else 0).sum

/-- Exact accumulated statistics of category `k` over the transactions `l`. -/
def catStats (w : World) (skip : Bool) (k : String) (l : List Tx) : TxStats :=
  ⟨catCount w skip k l, catGas w skip k l, catPrice w skip k l, catValue w skip k l⟩

theorem catStats_cons (w : World) (skip : Bool) (k : String) (tx : Tx) (rest : List Tx) :
    catStats w skip k (tx :: rest)
      = TxStats.plus
          (if catOf w skip tx = some k then ⟨1, txGas w tx, tx.gasPrice, tx.value⟩
           else TxStats.zero)
          (catStats w skip k rest) := by
  by_cases h : catOf w skip tx = some k
  · simp only [catStats, catCount, catGas, catPrice, catValue, List.countP_cons,
      List.map_cons, List.sum_cons, h, if_pos, decide_eq_true_eq, if_true,
      TxStats.plus, TxStats.mk.injEq, decide_true_eq_true]
    simp [h]
    omega
  · simp only [catStats, catCount, catGas, catPrice, catValue, List.countP_cons,
      List.map_cons, List.sum_cons, TxStats.plus, TxStats.zero, TxStats.mk.injEq]
    simp [h]

theorem foldOne_obs (w : World) (skip : Bool) (st : ChunkState) (tx : Tx)
    (r : Receipt) (hc : cacheOk w st.cache) :
    (foldOne w skip st tx r).total_tx = st.total_tx + 1
    ∧ (foldOne w skip st tx r).total_eth = st.total_eth + tx.value
    ∧ (foldOne w skip st tx r).stats
        = statsUpdate st.stats ((classify_tx w skip [] tx r).1).1
            r.gasUsed tx.gasPrice tx.value
    ∧ cacheOk w (foldOne w skip st tx r).cache
    ∧ (foldOne w skip st tx r).processed = st.processed := by
  obtain ⟨h1, h2⟩ := classify_tx_trans w skip st.cache tx r hc
  refine ⟨rfl, rfl, ?_, h2, rfl⟩
  show statsUpdate st.stats ((classify_tx w skip st.cache tx r).1).1 _ _ _ = _
  rw [h1]

theorem foldTxs_cons_err (w : World) (skip : Bool) (cap : Option Nat) (tx : Tx)
    (rest : List Tx) (st : ChunkState) (hr : w.getReceipt tx.hash = Except.error ()) :
    foldTxs w skip cap (tx :: rest) st = foldTxs w skip cap rest st := by
  rw [foldTxs, hr]

theorem foldTxs_cons_ok (w : World) (skip : Bool) (cap : Option Nat) (tx : Tx)
    (rest : List Tx) (st : ChunkState) (r : Receipt)
    (hr : w.getReceipt tx.hash = Except.ok r) :
    foldTxs w skip cap (tx :: rest) st
      = (if capReached cap (foldOne w skip st tx r).total_tx then foldOne w skip st tx r
         else foldTxs w skip cap rest (foldOne w skip st tx r)) := by
  rw [foldTxs, hr]

theorem foldTxs_cons_ok_none (w : World) (skip : Bool) (tx : Tx)
    (rest : List Tx) (st : ChunkState) (r : Receipt)
    (hr : w.getReceipt tx.hash = Except.ok r) :
    foldTxs w skip none (tx :: rest) st = foldTxs w skip none rest (foldOne w skip st tx r) := by
  rw [foldTxs_cons_ok w skip none tx rest st r hr]
  rfl

theorem foldTxs_none_obs (w : World) (skip : Bool) (l : List Tx) :
    ∀ st : ChunkState, cacheOk w st.cache →
    ((foldTxs w skip none l st).total_tx = st.total_tx + okCount w l)
    ∧ ((foldTxs w skip none l st).total_eth = st.total_eth + valSum w l)
    ∧ (∀ k, statsGet (foldTxs w skip none l st).stats k
        = TxStats.plus (statsGet st.stats k) (catStats w skip k l))
    ∧ (∀ k, k ∈ (foldTxs w skip none l st).stats.map Prod.fst
        ↔ (k ∈ st.stats.map Prod.fst ∨ 0 < catCount w skip k l))
    ∧ cacheOk w (foldTxs w skip none l st).cache
    ∧ (foldTxs w skip none l st).processed = st.processed
    ∧ ((st.stats.map Prod.fst).Nodup →
        ((foldTxs w skip none l st).stats.map Prod.fst).Nodup)
    ∧ ((∀ p ∈ st.stats, 0 < p.2.count) →
        ∀ p ∈ (foldTxs w skip none l st).stats, 0 < p.2.count) := by
  induction l with
  | nil =>
    intro st hc
    refine ⟨by simp [foldTxs, okCount], by simp [foldTxs, valSum], ?_, ?_, hc, rfl,
      fun h => h, fun h => h⟩
    · intro k
      simp only [foldTxs, catStats, catCount, catGas, catPrice, catValue,
        List.countP_nil, List.map_nil, List.sum_nil]
      exact (TxStats.plus_zero _).symm
    · intro k
      simp [foldTxs, catCount]
  | cons tx rest ih =>
    intro st hc
    cases hr : w.getReceipt tx.hash with
    | error e =>
      cases e
      rw [foldTxs_cons_err w skip none tx rest st hr]
      have hok : rOk w tx = false := by simp [rOk, hr]
      have hcat : catOf w skip tx = none := by simp [catOf, hr]
      obtain ⟨i1, i2, i3, i4, i5, i6, i7, i8⟩ := ih st hc
      refine ⟨?_, ?_, ?_, ?_, i5, i6, i7, i8⟩
      · rw [i1]
        simp [okCount, List.countP_cons, hok]
      · rw [i2]
        simp [valSum, hok]
      · intro k
        rw [i3 k, catStats_cons, hcat]
        simp [TxStats.zero_plus]
      · intro k
        rw [i4 k]
        simp [catCount, List.countP_cons, hcat]
    | ok r =>
      rw [foldTxs_cons_ok_none w skip tx rest st r hr]
      have hok : rOk w tx = true := by simp [rOk, hr]
      have hcat : catOf w skip tx = some ((classify_tx w skip [] tx r).1).1 := by
        simp [catOf, hr]
      obtain ⟨f1, f2, f3, f4, f5⟩ := foldOne_obs w skip st tx r hc
      obtain ⟨i1, i2, i3, i4, i5, i6, i7, i8⟩ := ih (foldOne w skip st tx r) f4
      refine ⟨?_, ?_, ?_, ?_, i5, by rw [i6, f5], ?_, ?_⟩
      · rw [i1, f1]
        simp [okCount, List.countP_cons, hok]
        omega
      · rw [i2, f2]
        simp [valSum, hok]
        omega
      · intro k
        rw [i3 k, f3, statsUpdate_get, catStats_cons, hcat]
        by_cases hk : ((classify_tx w skip [] tx r).1).1 = k
        · rw [if_pos hk.symm, if_pos (by rw [hk])]
          rw [TxStats.addTx_eq_plus, TxStats.plus_assoc]
          have : txGas w tx = r.gasUsed := by simp [txGas, hr]
          rw [this]
        · have h1 : ¬(k = ((classify_tx w skip [] tx r).1).1) := fun hc2 => hk hc2.symm
          have h2 : ¬((some (((classify_tx w skip [] tx r).1).1) : Option String) = some k) := by
            simp [hk]
          rw [if_neg h1, if_neg h2, TxStats.zero_plus]
      · intro k
        rw [i4 k, f3, statsUpdate_mem]
        have hcc : catCount w skip k (tx :: rest)
            = catCount w skip k rest
              + (if ((classify_tx w skip [] tx r).1).1 = k then 1 else 0) := by
          simp [catCount, List.countP_cons, hcat]
        rw [hcc]
        by_cases hk : ((classify_tx w skip [] tx r).1).1 = k
        · simp [hk]
        · simp [hk]
          tauto
      · intro hnd
        refine i7 ?_
        rw [f3]
        exact statsUpdate_nodup _ _ _ _ _ hnd
      · intro hpos
        refine i8 ?_
        rw [f3]
        exact statsUpdate_pos _ _ _ _ _ hpos

def joinTxs (w : World) : List Nat → List Tx
  | [] => []
  | b :: rest => (w.getBlock b).txs ++ joinTxs w rest

theorem joinTxs_append (w : World) (bs1 bs2 : List Nat) :
    joinTxs w (bs1 ++ bs2) = joinTxs w bs1 ++ joinTxs w bs2 := by
  induction bs1 with
  | nil => rfl
  | cons b rest ih => simp [joinTxs, ih]

theorem okCount_append (w : World) (l1 l2 : List Tx) :
    okCount w (l1 ++ l2) = okCount w l1 + okCount w l2 := by
  simp [okCount, List.countP_append]

theorem valSum_append (w : World) (l1 l2 : List Tx) :
    valSum w (l1 ++ l2) = valSum w l1 + valSum w l2 := by
  simp [valSum]

theorem catCount_append (w : World) (skip : Bool) (k : String) (l1 l2 : List Tx) :
    catCount w skip k (l1 ++ l2) = catCount w skip k l1 + catCount w skip k l2 := by
  simp [catCount, List.countP_append]

theorem catStats_append (w : World) (skip : Bool) (k : String) (l1 l2 : List Tx) :
    catStats w skip k (l1 ++ l2)
      = (catStats w skip k l1).plus (catStats w skip k l2) := by
  simp [catStats, catCount, catGas, catPrice, catValue, List.countP_append,
    TxStats.plus]

theorem chunkBlocks_cons_none (w : World) (skip : Bool) (b : Nat) (rest : List Nat)
    (st : ChunkState) :
    chunkBlocks w skip none (b :: rest) st
      = chunkBlocks w skip none rest
          (foldTxs w skip none (w.getBlock b).txs
            { st with processed := st.processed ++ [b] }) := by
  rw [chunkBlocks]
  rfl

theorem chunkBlocks_none_obs (w : World) (skip : Bool) (bs : List Nat) :
    ∀ st : ChunkState, cacheOk w st.cache →
    ((chunkBlocks w skip none bs st).total_tx = st.total_tx + okCount w (joinTxs w bs))
    ∧ ((chunkBlocks w skip none bs st).total_eth = st.total_eth + valSum w (joinTxs w bs))
    ∧ (∀ k, statsGet (chunkBlocks w skip none bs st).stats k
        = TxStats.plus (statsGet st.stats k) (catStats w skip k (joinTxs w bs)))
    ∧ (∀ k, k ∈ (chunkBlocks w skip none bs st).stats.map Prod.fst
        ↔ (k ∈ st.stats.map Prod.fst ∨ 0 < catCount w skip k (joinTxs w bs)))
    ∧ cacheOk w (chunkBlocks w skip none bs st).cache
    ∧ (chunkBlocks w skip none bs st).processed = st.processed ++ bs
    ∧ ((st.stats.map Prod.fst).Nodup →
        ((chunkBlocks w skip none bs st).stats.map Prod.fst).Nodup)
    ∧ ((∀ p ∈ st.stats, 0 < p.2.count) →
        ∀ p ∈ (chunkBlocks w skip none bs st).stats, 0 < p.2.count) := by
  induction bs with
  | nil =>
    intro st hc
    refine ⟨by simp [chunkBlocks, joinTxs, okCount], by simp [chunkBlocks, joinTxs, valSum],
      ?_, ?_, hc, by simp [chunkBlocks], fun h => h, fun h => h⟩
    · intro k
      simp only [chunkBlocks, joinTxs, catStats, catCount, catGas, catPrice, catValue,
        List.countP_nil, List.map_nil, List.sum_nil]
      exact (TxStats.plus_zero _).symm
    · intro k
      simp [chunkBlocks, joinTxs, catCount]
  | cons b rest ih =>
    intro st hc
    rw [chunkBlocks_cons_none]
    set st0 : ChunkState := { st with processed := st.processed ++ [b] } with hst0
    have hc0 : cacheOk w st0.cache := hc
    obtain ⟨f1, f2, f3, f4, f5, f6, f7, f8⟩ :=
      foldTxs_none_obs w skip (w.getBlock b).txs st0 hc0
    obtain ⟨i1, i2, i3, i4, i5, i6, i7, i8⟩ :=
      ih (foldTxs w skip none (w.getBlock b).txs st0) f5
    refine ⟨?_, ?_, ?_, ?_, i5, ?_, ?_, ?_⟩
    · rw [i1, f1]
      show st.total_tx + okCount w (w.getBlock b).txs + _ = _
      rw [joinTxs, okCount_append]
      omega
    · rw [i2, f2]
      show st.total_eth + valSum w (w.getBlock b).txs + _ = _
      rw [joinTxs, valSum_append]
      omega
    · intro k
      rw [i3 k, f3 k]
      show (TxStats.plus (statsGet st.stats k) _).plus _ = _
      rw [joinTxs, catStats_append, TxStats.plus_assoc]
    · intro k
      rw [i4 k, f4 k]
      show (k ∈ st.stats.map Prod.fst ∨ _) ∨ _ ↔ _
      rw [joinTxs, catCount_append]
      constructor
      · intro h
        rcases h with (h | h) | h
        · exact Or.inl h
        · exact Or.inr (by omega)
        · exact Or.inr (by omega)
      · intro h
        rcases h with h | h
        · exact Or.inl (Or.inl h)
        · by_cases hb : 0 < catCount w skip k (w.getBlock b).txs
          · exact Or.inl (Or.inr hb)
          · exact Or.inr (by omega)
    · rw [i6, f6]
      show st.processed ++ [b] ++ rest = _
      rw [List.append_assoc]
      rfl
    · intro hnd
      exact i7 (f7 hnd)
    · intro hpos
      exact i8 (f8 hpos)

def rangeTxs (w : World) (s e : Nat) : List Tx := joinTxs w (blockNums s e)

theorem initChunkState_cacheOk (w : World) : cacheOk w initChunkState.cache :=
  fun p hp => absurd hp (List.not_mem_nil p)

theorem chunkRun_obs (w : World) (s e : Nat) (skip : Bool) :
    (chunkRun w s e skip none).total_tx = okCount w (rangeTxs w s e)
    ∧ (chunkRun w s e skip none).total_eth = valSum w (rangeTxs w s e)
    ∧ (∀ k, statsGet (chunkRun w s e skip none).stats k
        = catStats w skip k (rangeTxs w s e))
    ∧ (∀ k, k ∈ (chunkRun w s e skip none).stats.map Prod.fst
        ↔ 0 < catCount w skip k (rangeTxs w s e))
    ∧ (chunkRun w s e skip none).processed = blockNums s e
    ∧ ((chunkRun w s e skip none).stats.map Prod.fst).Nodup
    ∧ (∀ p ∈ (chunkRun w s e skip none).stats, 0 < p.2.count) := by
  obtain ⟨h1, h2, h3, h4, h5, h6, h7, h8⟩ :=
    chunkBlocks_none_obs w skip (blockNums s e) initChunkState (initChunkState_cacheOk w)
  refine ⟨by simpa [initChunkState, rangeTxs] using h1,
    by simpa [initChunkState, rangeTxs] using h2, ?_, ?_,
    by simpa [initChunkState] using h6,
    h7 (by simp [initChunkState]),
    h8 (by simp [initChunkState])⟩
  · intro k
    show statsGet (chunkBlocks w skip none (blockNums s e) initChunkState).stats k
      = catStats w skip k (joinTxs w (blockNums s e))
    rw [h3 k]
    show TxStats.plus ((alookup [] k).getD TxStats.zero) _ = _
    simp [alookup, TxStats.zero_plus]
  · intro k
    show k ∈ (chunkBlocks w skip none (blockNums s e) initChunkState).stats.map Prod.fst
      ↔ 0 < catCount w skip k (joinTxs w (blockNums s e))
    rw [h4 k]
    simp [initChunkState]

theorem alookup_get_of_mem {m : List (String × TxStats)} {k : String}
    (h : k ∈ m.map Prod.fst) : alookup m k = some (statsGet m k) := by
  cases hv : alookup m k with
  | none => exact absurd h ((alookup_eq_none m k).mp hv)
  | some v => simp [statsGet, hv]

theorem profile_chunk_types_lookup (w : World) (s e : Nat) (skip : Bool)
    (tm : String) (k : String) :
    alookup (profile_chunk w s e skip none tm).tx_types k
      = if 0 < catCount w skip k (rangeTxs w s e)
        then some (mkTypeEntry (catStats w skip k (rangeTxs w s e))) else none := by
  obtain ⟨h1, h2, h3, h4, h5, h6, h7⟩ := chunkRun_obs w s e skip
  show alookup ((sortWith keyLe (chunkRun w s e skip none).stats).map
      fun p => (p.1, mkTypeEntry p.2)) k = _
  rw [alookup_map_val]
  have hnd : ((sortWith keyLe (chunkRun w s e skip none).stats).map Prod.fst).Nodup :=
    (((sortWith_perm keyLe _).map Prod.fst).nodup_iff).mpr h6
  rw [alookup_perm (sortWith_perm keyLe _) hnd k]
  by_cases hcc : 0 < catCount w skip k (rangeTxs w s e)
  · rw [if_pos hcc, alookup_get_of_mem ((h4 k).mpr hcc), h3 k]
    rfl
  · rw [if_neg hcc, (alookup_eq_none _ k).mpr (fun hm => hcc ((h4 k).mp hm))]
    rfl

theorem catStats_perm (w : World) (skip : Bool) (k : String) {l l' : List Tx}
    (h : l.Perm l') : catStats w skip k l = catStats w skip k l' := by
  unfold catStats catCount catGas catPrice catValue
  rw [h.countP_eq, (h.map _).sum_eq, (h.map _).sum_eq, (h.map _).sum_eq]

/-- Claim C9 as amended: with no transaction cap, the receipt-loop fold gives
the same total count, total value and per-category statistics for every
arrival order (the per-address contract cache is transparent memoization, so
each transaction's category is order-independent). -/
theorem claim_C9_amended (w : World) (skip : Bool) (l l' : List Tx)
    (st : ChunkState) (hperm : l.Perm l') (hc : cacheOk w st.cache) :
    ((foldTxs w skip none l st).total_tx = (foldTxs w skip none l' st).total_tx)
    ∧ ((foldTxs w skip none l st).total_eth = (foldTxs w skip none l' st).total_eth)
    ∧ (∀ k, statsGet (foldTxs w skip none l st).stats k
        = statsGet (foldTxs w skip none l' st).stats k) := by
  obtain ⟨a1, a2, a3, _⟩ := foldTxs_none_obs w skip l st hc
  obtain ⟨b1, b2, b3, _⟩ := foldTxs_none_obs w skip l' st hc
  refine ⟨?_, ?_, ?_⟩
  · rw [a1, b1]
    unfold okCount
    rw [hperm.countP_eq]
  · rw [a2, b2]
    unfold valSum
    rw [(hperm.map _).sum_eq]
  · intro k
    rw [a3 k, b3 k, catStats_perm w skip k hperm]

/-- A world where every receipt fetch succeeds with an empty log list. -/
def worldPlain : World :=
  { trivialWorld with getReceipt := fun _ => Except.ok ⟨21000, []⟩ }

/-- Witness for C9: folding two concrete transactions in either arrival order
gives the same per-category statistics. -/
theorem claim_C9_witness :
    statsGet (foldTxs worldPlain true none
        [⟨1, some "0xa", some "0xb", 7, 5⟩, ⟨2, some "0xc", none, 3, 0⟩]
        initChunkState).stats "eth_transfer"
      = statsGet (foldTxs worldPlain true none
        [⟨2, some "0xc", none, 3, 0⟩, ⟨1, some "0xa", some "0xb", 7, 5⟩]
        initChunkState).stats "eth_transfer" :=
  (claim_C9_amended worldPlain true
    [⟨1, some "0xa", some "0xb", 7, 5⟩, ⟨2, some "0xc", none, 3, 0⟩]
    [⟨2, some "0xc", none, 3, 0⟩, ⟨1, some "0xa", some "0xb", 7, 5⟩]
    initChunkState (by decide) (initChunkState_cacheOk _)).2.2 "eth_transfer"

/-- Counterexample to C9 as stated: with a transaction cap of 1 the folded
subset depends on arrival order, so the final category counts differ between
the two orders of the same two transactions. -/
theorem claim_C9_counterexample :
    statsGet (foldTxs worldPlain true (some 1)
        [⟨1, some "0xa", some "0xb", 7, 5⟩, ⟨2, some "0xc", none, 3, 0⟩]
        initChunkState).stats "eth_transfer"
      ≠ statsGet (foldTxs worldPlain true (some 1)
        [⟨2, some "0xc", none, 3, 0⟩, ⟨1, some "0xa", some "0xb", 7, 5⟩]
        initChunkState).stats "eth_transfer" := by
  decide

/-- Claim C8 as amended: a failed receipt fetch drops that transaction and
only it — the loop continues and the fold result equals folding only the
successfully fetched transactions, so a dropped transaction contributes zero
to every statistic (but no dropped/failed counter is exposed anywhere). -/
theorem claim_C8_amended (w : World) (skip : Bool) (cap : Option Nat) :
    (∀ tx rest st, w.getReceipt tx.hash = Except.error () →
        foldTxs w skip cap (tx :: rest) st = foldTxs w skip cap rest st)
    ∧ (∀ l st, foldTxs w skip cap l st = foldTxs w skip cap (l.filter (rOk w)) st) := by
  constructor
  · exact fun tx rest st hr => foldTxs_cons_err w skip cap tx rest st hr
  · intro l
    induction l with
    | nil => intro st; rfl
    | cons tx rest ih =>
      intro st
      cases hr : w.getReceipt tx.hash with
      | error e =>
        cases e
        have hfok : rOk w tx = false := by simp [rOk, hr]
        rw [foldTxs_cons_err w skip cap tx rest st hr, List.filter_cons]
        simp only [hfok, Bool.false_eq_true, if_false]
        exact ih st
      | ok r =>
        have hfok : rOk w tx = true := by simp [rOk, hr]
        rw [foldTxs_cons_ok w skip cap tx rest st r hr, List.filter_cons]
        simp only [hfok, if_true]
        rw [foldTxs_cons_ok w skip cap tx (rest.filter (rOk w)) st r hr]
        by_cases hcap2 : capReached cap (foldOne w skip st tx r).total_tx = true
        · rw [if_pos hcap2, if_pos hcap2]
        · rw [if_neg hcap2, if_neg hcap2]
          exact ih _

/-- Witness for C8: a failing receipt leaves the state untouched. -/
theorem claim_C8_witness :
    foldTxs trivialWorld false none [⟨1, some "0xa", some "0xb", 7, 5⟩] initChunkState
      = initChunkState :=
  (claim_C8_amended trivialWorld false none).1 _ [] initChunkState rfl

def worldDropNone : World :=
  { trivialWorld with
    getBlock := fun n =>
      if n = 3 then ⟨3, 50, [⟨1, some "0xa", some "0xb", 7, 5⟩], 100⟩ else emptyBlock
    getReceipt := fun h => if h = 1 then Except.ok ⟨21000, []⟩ else Except.error () }

def worldDropOne : World :=
  { worldDropNone with
    getBlock := fun n =>
      if n = 3 then
        ⟨3, 50, [⟨1, some "0xa", some "0xb", 7, 5⟩, ⟨2, some "0xc", some "0xd", 9, 11⟩], 100⟩
      else emptyBlock }

/-- Number of transactions of a block whose receipt fetch fails (the losses
the spec wants counted). -/
def droppedCount (w : World) (b : Nat) : Nat :=
  (w.getBlock b).txs.countP fun tx => !(rOk w tx)

/-- Counterexample to C8 as stated: two runs whose dropped-transaction counts
differ (1 vs 0) produce identical summaries, so the number of dropped items
is not exposed as a counter in the output. -/
theorem claim_C8_counterexample :
    droppedCount worldDropOne 3 = 1 ∧ droppedCount worldDropNone 3 = 0
    ∧ profile_chunk worldDropOne 3 3 true none "none"
        = profile_chunk worldDropNone 3 3 true none "none" := by
  decide

theorem foldTxs_cap (w : World) (skip : Bool) (c : Nat) (l : List Tx) :
    ∀ st : ChunkState, st.total_tx < c →
    (foldTxs w skip (some c) l st).total_tx = min c (st.total_tx + okCount w l)
    ∧ (foldTxs w skip (some c) l st).processed = st.processed := by
  induction l with
  | nil =>
    intro st hst
    refine ⟨?_, rfl⟩
    show st.total_tx = _
    simp [okCount]
    omega
  | cons tx rest ih =>
    intro st hst
    cases hr : w.getReceipt tx.hash with
    | error e =>
      cases e
      rw [foldTxs_cons_err w skip _ tx rest st hr]
      have hok : rOk w tx = false := by simp [rOk, hr]
      obtain ⟨i1, i2⟩ := ih st hst
      refine ⟨?_, i2⟩
      rw [i1]
      simp [okCount, List.countP_cons, hok]
    | ok r =>
      rw [foldTxs_cons_ok w skip _ tx rest st r hr]
      have hok : rOk w tx = true := by simp [rOk, hr]
      have hf1 : (foldOne w skip st tx r).total_tx = st.total_tx + 1 := rfl
      have hf5 : (foldOne w skip st tx r).processed = st.processed := rfl
      by_cases hcap2 : c ≤ st.total_tx + 1
      · have hcr : capReached (some c) (foldOne w skip st tx r).total_tx = true := by
          simp [capReached, hf1]
          omega
        rw [if_pos hcr]
        refine ⟨?_, hf5⟩
        rw [hf1]
        simp [okCount, List.countP_cons, hok]
        omega
      · have hcr : capReached (some c) (foldOne w skip st tx r).total_tx = false := by
          simp [capReached, hf1]
          omega
        rw [hcr, if_neg (Bool.false_ne_true)]
        obtain ⟨i1, i2⟩ := ih (foldOne w skip st tx r) (by omega)
        refine ⟨?_, by rw [i2, hf5]⟩
        rw [i1, hf1]
        simp [okCount, List.countP_cons, hok]
        omega

/-- Index (1-based count) of the block in which the running total first
reaches the cap: the number of blocks the loop fetches. -/
def firstReach (cap : Nat) : List Nat → Nat
  | [] => 0
  | n :: rest => if cap ≤ n then 1 else 1 + firstReach (cap - n) rest

theorem chunkBlocks_cons (w : World) (skip : Bool) (cap : Option Nat) (b : Nat)
    (rest : List Nat) (st : ChunkState) :
    chunkBlocks w skip cap (b :: rest) st
      = (if capReached cap (foldTxs w skip cap (w.getBlock b).txs
            { st with processed := st.processed ++ [b] }).total_tx
         then foldTxs w skip cap (w.getBlock b).txs
            { st with processed := st.processed ++ [b] }
         else chunkBlocks w skip cap rest
            (foldTxs w skip cap (w.getBlock b).txs
              { st with processed := st.processed ++ [b] })) := by
  rw [chunkBlocks]

theorem chunkBlocks_cap (w : World) (skip : Bool) (c : Nat) (bs : List Nat) :
    ∀ st : ChunkState, st.total_tx < c →
    (chunkBlocks w skip (some c) bs st).total_tx
      = min c (st.total_tx + okCount w (joinTxs w bs))
    ∧ (chunkBlocks w skip (some c) bs st).processed
      = st.processed ++ bs.take (firstReach (c - st.total_tx)
          (bs.map fun b => okCount w (w.getBlock b).txs)) := by
  induction bs with
  | nil =>
    intro st hst
    refine ⟨?_, by simp [chunkBlocks, firstReach]⟩
    show st.total_tx = _
    simp [joinTxs, okCount]
    omega
  | cons b rest ih =>
    intro st hst
    rw [chunkBlocks_cons]
    set st0 : ChunkState := { st with processed := st.processed ++ [b] } with hst0
    have hst0t : st0.total_tx = st.total_tx := rfl
    obtain ⟨f1, f2⟩ := foldTxs_cap w skip c (w.getBlock b).txs st0 (by omega)
    set okb := okCount w (w.getBlock b).txs with hokb
    by_cases hreach : c ≤ st.total_tx + okb
    · have hcr : capReached (some c)
          (foldTxs w skip (some c) (w.getBlock b).txs st0).total_tx = true := by
        simp [capReached, f1, hst0t]
        omega
      rw [if_pos hcr]
      constructor
      · rw [f1, hst0t, joinTxs, okCount_append, ← hokb]
        omega
      · rw [f2]
        have hfr : firstReach (c - st.total_tx)
            ((b :: rest).map fun b => okCount w (w.getBlock b).txs) = 1 := by
          rw [List.map_cons, firstReach, if_pos (by omega)]
        rw [hfr]
        rfl
    · have hlt : st.total_tx + okb < c := by omega
      have hcr : capReached (some c)
          (foldTxs w skip (some c) (w.getBlock b).txs st0).total_tx = false := by
        simp [capReached, f1, hst0t]
        omega
      rw [hcr, if_neg (Bool.false_ne_true)]
      have hft : (foldTxs w skip (some c) (w.getBlock b).txs st0).total_tx
          = st.total_tx + okb := by
        rw [f1, hst0t]
        omega
      obtain ⟨i1, i2⟩ := ih (foldTxs w skip (some c) (w.getBlock b).txs st0) (by omega)
      constructor
      · rw [i1, hft, joinTxs, okCount_append, ← hokb]
        omega
      · rw [i2, hft, f2]
        have hfr : firstReach (c - st.total_tx)
            ((b :: rest).map fun b => okCount w (w.getBlock b).txs)
            = 1 + firstReach (c - (st.total_tx + okb))
                (rest.map fun b => okCount w (w.getBlock b).txs) := by
          rw [List.map_cons, firstReach, if_neg (by omega)]
          have : c - st.total_tx - okb = c - (st.total_tx + okb) := by omega
          rw [← hokb, this]
        rw [hfr]
        show st.processed ++ [b] ++ _ = _
        rw [List.append_assoc]
        congr 1
        rw [Nat.add_comm 1 _, List.take_succ_cons]
        rfl

/-- Claim C2 as amended: within one `profile_chunk` call with cap `c ≥ 1`,
exactly `min(c, available)` transactions are folded and the block loop
fetches no block past the one in which the running total reaches the cap;
however the cap is re-applied afresh to every chunk of `profile_range`, and
both the chunk and the overall summary always report the originally
requested `[start, end]` range, never the reduced coverage. -/
theorem claim_C2_amended (w : World) (skip : Bool) (s e c : Nat) (tm : String)
    (hc : 1 ≤ c) :
    (profile_chunk w s e skip (some c) tm).total_tx
        = min c (okCount w (rangeTxs w s e))
    ∧ (chunkRun w s e skip (some c)).processed
        = (blockNums s e).take (firstReach c
            ((blockNums s e).map fun b => okCount w (w.getBlock b).txs))
    ∧ (profile_chunk w s e skip (some c) tm).start_block = s
    ∧ (profile_chunk w s e skip (some c) tm).end_block = e
    ∧ (∀ cs cap tm2, (profile_range w s e skip cap cs tm2).start_block = s
        ∧ (profile_range w s e skip cap cs tm2).end_block = e) := by
  obtain ⟨h1, h2⟩ :=
    chunkBlocks_cap w skip c (blockNums s e) initChunkState (by simp [initChunkState]; omega)
  refine ⟨?_, ?_, rfl, rfl, fun cs cap tm2 => ⟨rfl, rfl⟩⟩
  · show (chunkBlocks w skip (some c) (blockNums s e) initChunkState).total_tx = _
    rw [h1]
    simp [initChunkState, rangeTxs]
  · show (chunkBlocks w skip (some c) (blockNums s e) initChunkState).processed = _
    rw [h2]
    rfl

/-- Two blocks of three transactions each, every receipt fetch succeeding. -/
def worldSixTx : World :=
  { trivialWorld with
    getBlock := fun n =>
      ⟨n, 0, [⟨3 * n, some "0xa", some "0xb", 1, 0⟩,
              ⟨3 * n + 1, some "0xa", some "0xb", 1, 0⟩,
              ⟨3 * n + 2, some "0xa", some "0xb", 1, 0⟩], 0⟩
    getReceipt := fun _ => Except.ok ⟨21000, []⟩ }

/-- Witness for C2 (amended): the concrete capped chunk folds
`min(2, 6) = 2` transactions. -/
theorem claim_C2_witness :
    (profile_chunk worldSixTx 1 2 true (some 2) "none").total_tx
      = min 2 (okCount worldSixTx (rangeTxs worldSixTx 1 2)) :=
  (claim_C2_amended worldSixTx true 1 2 2 "none" (by omega)).1

/-- Counterexample to C2 as stated: over two one-block chunks with cap 2 the
run folds 4 transactions although min(cap, available) = min(2, 6) = 2 — the
cap is re-applied per chunk — and with cap 1 only block 1 is fetched while
the summary still reports the full requested range [1, 2]. -/
theorem claim_C2_counterexample :
    (profile_range worldSixTx 1 2 true (some 2) 1 "none").total_tx = 4
    ∧ okCount worldSixTx (rangeTxs worldSixTx 1 2) = 6
    ∧ ((4 : Nat) ≠ min 2 6)
    ∧ (chunkRun worldSixTx 1 2 true (some 1)).processed = [1]
    ∧ (profile_chunk worldSixTx 1 2 true (some 1) "none").end_block = 2
    ∧ (profile_chunk worldSixTx 1 2 true (some 1) "none").block_count = 2 := by
  decide

theorem counterAdd_mem (m : List (String × Nat)) (k0 : String) (n : Nat) (k : String) :
    k ∈ (counterAdd m k0 n).map Prod.fst ↔ (k ∈ m.map Prod.fst ∨ k = k0) := by
  induction m with
  | nil => simp [counterAdd, eq_comm]
  | cons q rest ih =>
    rw [counterAdd]
    by_cases hq : q.1 = k0
    · rw [if_pos hq]
      subst hq
      simp only [List.map_cons, List.mem_cons]
      constructor
      · intro h
        exact Or.inl h
      · intro h
        rcases h with h | h
        · exact h
        · exact Or.inl (by rw [h])
    · rw [if_neg hq]
      simp only [List.map_cons, List.mem_cons, ih]
      tauto

theorem counterAdd_nodup (m : List (String × Nat)) (k0 : String) (n : Nat)
    (hnd : (m.map Prod.fst).Nodup) : ((counterAdd m k0 n).map Prod.fst).Nodup := by
  induction m with
  | nil => simp [counterAdd]
  | cons q rest ih =>
    rw [counterAdd]
    rw [List.map_cons, List.nodup_cons] at hnd
    by_cases hq : q.1 = k0
    · rw [if_pos hq]
      simpa using hnd
    · rw [if_neg hq]
      rw [List.map_cons, List.nodup_cons]
      refine ⟨?_, ih hnd.2⟩
      intro hcon
      rcases (counterAdd_mem rest k0 n q.1).mp hcon with h | h
      · exact hnd.1 h
      · exact hq h

theorem counterAdd_fresh (m : List (String × Nat)) (k0 : String) (n : Nat)
    (h : k0 ∉ m.map Prod.fst) : counterAdd m k0 n = m ++ [(k0, n)] := by
  induction m with
  | nil => rfl
  | cons q rest ih =>
    rw [counterAdd]
    simp only [List.map_cons, List.mem_cons] at h
    rw [if_neg (fun hc => h (Or.inl hc.symm))]
    rw [ih (fun hc => h (Or.inr hc))]
    rfl

/-- Invariants of the chunk state preserved by the fold, for any cap. -/
def stateWF (w : World) (st : ChunkState) : Prop :=
  cacheOk w st.cache
  ∧ (st.stats.map Prod.fst).Nodup
  ∧ (∀ p ∈ st.stats, 0 < p.2.count)
  ∧ (st.top_contracts.map Prod.fst).Nodup
  ∧ (st.top_tokens.map Prod.fst).Nodup

theorem foldOne_top_contracts (w : World) (skip : Bool) (st : ChunkState)
    (tx : Tx) (r : Receipt) :
    (foldOne w skip st tx r).top_contracts
      = (match tx.toAddr with
         | some s => if s = "" then st.top_contracts
                     else counterAdd st.top_contracts (pyLower s) 1
         | none => st.top_contracts) := rfl

theorem foldOne_top_tokens (w : World) (skip : Bool) (st : ChunkState)
    (tx : Tx) (r : Receipt) :
    (foldOne w skip st tx r).top_tokens
      = (match (classify_tx w skip st.cache tx r).1.2 with
         | some s => if s = "" then st.top_tokens
                     else counterAdd st.top_tokens (pyLower s) 1
         | none => st.top_tokens) := rfl

theorem foldOne_WF (w : World) (skip : Bool) (st : ChunkState) (tx : Tx)
    (r : Receipt) (h : stateWF w st) : stateWF w (foldOne w skip st tx r) := by
  obtain ⟨h1, h2, h3, h4, h5⟩ := h
  obtain ⟨_, hc2⟩ := classify_tx_trans w skip st.cache tx r h1
  refine ⟨hc2, statsUpdate_nodup _ _ _ _ _ h2, statsUpdate_pos _ _ _ _ _ h3, ?_, ?_⟩
  · rw [foldOne_top_contracts]
    cases tx.toAddr with
    | none => exact h4
    | some a =>
      by_cases ha : a = ""
      · simpa [ha] using h4
      · simp only [if_neg ha]
        exact counterAdd_nodup _ _ _ h4
  · rw [foldOne_top_tokens]
    cases (classify_tx w skip st.cache tx r).1.2 with
    | none => exact h5
    | some a =>
      by_cases ha : a = ""
      · simpa [ha] using h5
      · simp only [if_neg ha]
        exact counterAdd_nodup _ _ _ h5

theorem foldTxs_WF (w : World) (skip : Bool) (cap : Option Nat) (l : List Tx) :
    ∀ st : ChunkState, stateWF w st → stateWF w (foldTxs w skip cap l st) := by
  induction l with
  | nil => exact fun st h => h
  | cons tx rest ih =>
    intro st h
    cases hr : w.getReceipt tx.hash with
    | error e =>
      cases e
      rw [foldTxs_cons_err w skip cap tx rest st hr]
      exact ih st h
    | ok r =>
      rw [foldTxs_cons_ok w skip cap tx rest st r hr]
      have hf := foldOne_WF w skip st tx r h
      split
      · exact hf
      · exact ih _ hf

theorem chunkBlocks_WF (w : World) (skip : Bool) (cap : Option Nat) (bs : List Nat) :
    ∀ st : ChunkState, stateWF w st → stateWF w (chunkBlocks w skip cap bs st) := by
  induction bs with
  | nil => exact fun st h => h
  | cons b rest ih =>
    intro st h
    rw [chunkBlocks_cons]
    have h0 : stateWF w { st with processed := st.processed ++ [b] } := h
    have hf := foldTxs_WF w skip cap (w.getBlock b).txs _ h0
    split
    · exact hf
    · exact ih _ hf

theorem initChunkState_WF (w : World) : stateWF w initChunkState := by
  refine ⟨initChunkState_cacheOk w, ?_, ?_, ?_, ?_⟩ <;> simp [initChunkState]

theorem keyLe_map_chain {β γ : Type} (f : β → γ) (l : List (String × β))
    (h : SortedB keyLe l) : SortedB keyLe (l.map fun p => (p.1, f p.2)) := by
  unfold SortedB at h ⊢
  rw [List.chain'_map]
  exact h.imp fun {a b} hab => hab

theorem cntLe_sorted_take (l : List (String × Nat)) (n : Nat)
    (h : SortedB cntLe l) : SortedB cntLe (l.take n) :=
  List.Chain'.take h n

theorem map_fst_map_val {β γ : Type} (f : β → γ) (l : List (String × β)) :
    ((l.map fun p => (p.1, f p.2)).map Prod.fst) = l.map Prod.fst := by
  induction l with
  | nil => rfl
  | cons p rest ih => simp [ih]

theorem profile_chunk_summary_wf (w : World) (s e : Nat) (skip : Bool)
    (cap : Option Nat) (tm : String) :
    ((profile_chunk w s e skip cap tm).tx_types.map Prod.fst).Nodup
    ∧ SortedB keyLe (profile_chunk w s e skip cap tm).tx_types
    ∧ (∀ p ∈ (profile_chunk w s e skip cap tm).tx_types,
        0 < p.2.count ∧ ∃ raw, p.2.eth_value_wei = decRound40 raw)
    ∧ ((profile_chunk w s e skip cap tm).top_contracts.map Prod.fst).Nodup
    ∧ SortedB cntLe (profile_chunk w s e skip cap tm).top_contracts
    ∧ (profile_chunk w s e skip cap tm).top_contracts.length ≤ 20
    ∧ ((profile_chunk w s e skip cap tm).top_tokens.map Prod.fst).Nodup
    ∧ SortedB cntLe (profile_chunk w s e skip cap tm).top_tokens
    ∧ (profile_chunk w s e skip cap tm).top_tokens.length ≤ 20 := by
  obtain ⟨hw1, hw2, hw3, hw4, hw5⟩ :=
    chunkBlocks_WF w skip cap (blockNums s e) initChunkState (initChunkState_WF w)
  refine ⟨?_, ?_, ?_, ?_, ?_, ?_, ?_, ?_, ?_⟩
  · show (((sortWith keyLe (chunkRun w s e skip cap).stats).map
        fun p => (p.1, mkTypeEntry p.2)).map Prod.fst).Nodup
    rw [map_fst_map_val]
    exact (((sortWith_perm keyLe _).map Prod.fst).nodup_iff).mpr hw2
  · show SortedB keyLe ((sortWith keyLe (chunkRun w s e skip cap).stats).map
        fun p => (p.1, mkTypeEntry p.2))
    exact keyLe_map_chain _ _ (sortWith_sorted keyLe keyLe_total _)
  · intro p hp
    rcases List.mem_map.mp hp with ⟨q, hq, rfl⟩
    have hq2 : q ∈ (chunkRun w s e skip cap).stats := (sortWith_perm keyLe _).mem_iff.mp hq
    exact ⟨hw3 q hq2, ⟨q.2.eth_value_wei_sum, rfl⟩⟩
  · show (((sortWith cntLe (chunkRun w s e skip cap).top_contracts).take 20).map
        Prod.fst).Nodup
    rw [List.map_take]
    exact List.Nodup.sublist (List.take_sublist _ _)
      ((((sortWith_perm cntLe _).map Prod.fst).nodup_iff).mpr hw4)
  · exact cntLe_sorted_take _ _ (sortWith_sorted cntLe cntLe_total _)
  · show ((sortWith cntLe (chunkRun w s e skip cap).top_contracts).take 20).length ≤ 20
    rw [List.length_take]
    omega
  · show (((sortWith cntLe (chunkRun w s e skip cap).top_tokens).take 20).map
        Prod.fst).Nodup
    rw [List.map_take]
    exact List.Nodup.sublist (List.take_sublist _ _)
      ((((sortWith_perm cntLe _).map Prod.fst).nodup_iff).mpr hw5)
  · exact cntLe_sorted_take _ _ (sortWith_sorted cntLe cntLe_total _)
  · show ((sortWith cntLe (chunkRun w s e skip cap).top_tokens).take 20).length ≤ 20
    rw [List.length_take]
    omega

/-- The per-category sums reconstructed by the merge loop from one chunk
entry: exact count/gas, gas-price sum rebuilt from the rounded average. -/
def reconTx (en : TypeEntry) : TxStats :=
  ⟨en.count, en.gas_used, en.avg_gas_price_q * 100000 * en.count, en.eth_value_wei⟩

theorem aggUpdate_fresh (m : List (String × TxStats)) (k0 : String) (en : TypeEntry)
    (h : k0 ∉ m.map Prod.fst) : aggUpdate m k0 en = m ++ [(k0, reconTx en)] := by
  induction m with
  | nil => rfl
  | cons q rest ih =>
    rw [aggUpdate]
    simp only [List.map_cons, List.mem_cons] at h
    rw [if_neg (fun hc => h (Or.inl hc.symm))]
    rw [ih (fun hc => h (Or.inr hc))]
    rfl

theorem foldl_counterAdd_id (entries : List (String × Nat)) :
    ∀ acc : List (String × Nat), (entries.map Prod.fst).Nodup →
    (∀ k ∈ entries.map Prod.fst, k ∉ acc.map Prod.fst) →
    entries.foldl (fun m p => counterAdd m p.1 p.2) acc = acc ++ entries := by
  induction entries with
  | nil =>
    intro acc _ _
    simp
  | cons p rest ih =>
    obtain ⟨k0, n0⟩ := p
    intro acc hnd hdis
    simp only [List.foldl_cons]
    rw [counterAdd_fresh acc k0 n0 (hdis k0 (by simp))]
    rw [List.map_cons, List.nodup_cons] at hnd
    rw [ih (acc ++ [(k0, n0)]) hnd.2 ?_]
    · simp
    · intro k hk
      simp only [List.map_append, List.mem_append]
      intro hcon
      rcases hcon with hcon | hcon
      · exact hdis k (by simp [hk]) hcon
      · simp at hcon
        rw [hcon] at hk
        exact hnd.1 hk

theorem foldl_aggUpdate_id (entries : List (String × TypeEntry)) :
    ∀ acc : List (String × TxStats), (entries.map Prod.fst).Nodup →
    (∀ k ∈ entries.map Prod.fst, k ∉ acc.map Prod.fst) →
    entries.foldl (fun m p => aggUpdate m p.1 p.2) acc
      = acc ++ entries.map fun p => (p.1, reconTx p.2) := by
  induction entries with
  | nil =>
    intro acc _ _
    simp
  | cons p rest ih =>
    obtain ⟨k0, en0⟩ := p
    intro acc hnd hdis
    simp only [List.foldl_cons]
    rw [aggUpdate_fresh acc k0 en0 (hdis k0 (by simp))]
    rw [List.map_cons, List.nodup_cons] at hnd
    rw [ih (acc ++ [(k0, reconTx en0)]) hnd.2 ?_]
    · simp
    · intro k hk
      simp only [List.map_append, List.mem_append]
      intro hcon
      rcases hcon with hcon | hcon
      · exact hdis k (by simp [hk]) hcon
      · simp at hcon
        rw [hcon] at hk
        exact hnd.1 hk

theorem mkTypeEntry_recon (en : TypeEntry) (hc : 0 < en.count)
    (hv : ∃ raw, en.eth_value_wei = decRound40 raw) :
    mkTypeEntry (reconTx en) = en := by
  obtain ⟨raw, hraw⟩ := hv
  obtain ⟨c, g, q, v⟩ := en
  have hc' : 0 < c := hc
  have hraw' : v = decRound40 raw := hraw
  unfold mkTypeEntry reconTx avgGasQ
  simp only [TypeEntry.mk.injEq]
  refine ⟨trivial, trivial, ?_, ?_⟩
  · rw [if_neg (by omega)]
    rw [show q * 100000 * c = q * (c * 100000) by ring]
    exact rhe_exact q (c * 100000) (by positivity)
  · rw [hraw', decRound40_idem]

theorem chunkList_nil_of_gt (fuel cur e cs : Nat) (h : e < cur) :
    chunkList fuel cur e cs = [] := by
  cases fuel with
  | zero => rfl
  | succ f => rw [chunkList, if_neg (by omega)]

theorem rangeChunks_single (s e cs : Nat) (hse : s ≤ e) (hcs : e + 1 - s ≤ cs) :
    rangeChunks s e cs = [(s, e)] := by
  unfold rangeChunks
  have hfuel : e + 1 - s = (e - s) + 1 := by omega
  rw [hfuel, chunkList, if_pos hse]
  have hmin : min (s + cs - 1) e = e := by omega
  rw [hmin, chunkList_nil_of_gt _ _ _ _ (by omega)]

/-- Claim C7 as amended: merging the summary of a single chunk reproduces it
unchanged in every corresponding field — block range, counts, gas sums,
average gas prices, value sums, internal value and both top-20 lists —
except the overall unique sender/receiver counts, which `profile_range`
always reports as the sentinel -1. -/
theorem claim_C7_amended (w : World) (s e cs : Nat) (skip : Bool)
    (cap : Option Nat) (tm : String) (hse : s ≤ e) (hcs : e + 1 - s ≤ cs) :
    (profile_range w s e skip cap cs tm).start_block
        = (profile_chunk w s e skip cap tm).start_block
    ∧ (profile_range w s e skip cap cs tm).end_block
        = (profile_chunk w s e skip cap tm).end_block
    ∧ (profile_range w s e skip cap cs tm).block_count
        = (profile_chunk w s e skip cap tm).block_count
    ∧ (profile_range w s e skip cap cs tm).total_tx
        = (profile_chunk w s e skip cap tm).total_tx
    ∧ (profile_range w s e skip cap cs tm).total_eth_wei
        = (profile_chunk w s e skip cap tm).total_eth_wei
    ∧ (profile_range w s e skip cap cs tm).internal_wei
        = (profile_chunk w s e skip cap tm).internal_wei
    ∧ (profile_range w s e skip cap cs tm).tx_types
        = (profile_chunk w s e skip cap tm).tx_types
    ∧ (profile_range w s e skip cap cs tm).top_contracts
        = (profile_chunk w s e skip cap tm).top_contracts
    ∧ (profile_range w s e skip cap cs tm).top_tokens
        = (profile_chunk w s e skip cap tm).top_tokens := by
  have hrc : rangeChunks s e cs = [(s, e)] := rangeChunks_single s e cs hse hcs
  have hov : profile_range w s e skip cap cs tm
      = { start_block := s, end_block := e, block_count := e - s + 1,
          total_tx := (mergeOne MergeAcc.init (profile_chunk w s e skip cap tm)).total_tx,
          unique_senders := -1, unique_receivers := -1,
          total_eth_wei := decRound40
            (mergeOne MergeAcc.init (profile_chunk w s e skip cap tm)).total_eth,
          internal_wei := decRound40
            (mergeOne MergeAcc.init (profile_chunk w s e skip cap tm)).internal,
          tx_types := (sortWith keyLe
            (mergeOne MergeAcc.init (profile_chunk w s e skip cap tm)).agg).map
              fun p => (p.1, mkTypeEntry p.2),
          top_contracts := (sortWith cntLe
            (mergeOne MergeAcc.init (profile_chunk w s e skip cap tm)).top_contracts).take 20,
          top_tokens := (sortWith cntLe
            (mergeOne MergeAcc.init (profile_chunk w s e skip cap tm)).top_tokens).take 20 } := by
    unfold profile_range
    rw [hrc]
    rfl
  obtain ⟨wfk, wfs, wfe, wfck, wfcs, wfcl, wftk, wfts, wftl⟩ :=
    profile_chunk_summary_wf w s e skip cap tm
  rw [hov]
  refine ⟨rfl, rfl, rfl, ?_, ?_, ?_, ?_, ?_, ?_⟩
  · show MergeAcc.init.total_tx + (profile_chunk w s e skip cap tm).total_tx = _
    simp [MergeAcc.init]
  · show decRound40 (MergeAcc.init.total_eth
        + (profile_chunk w s e skip cap tm).total_eth_wei) = _
    show decRound40 (0 + decRound40 (chunkRun w s e skip cap).total_eth) = _
    rw [Nat.zero_add, decRound40_idem]
    rfl
  · show decRound40 (MergeAcc.init.internal
        + (profile_chunk w s e skip cap tm).internal_wei) = _
    show decRound40 (0 + decRound40 (internalTotal w tm s e)) = _
    rw [Nat.zero_add, decRound40_idem]
    rfl
  · have hagg : (mergeOne MergeAcc.init (profile_chunk w s e skip cap tm)).agg
        = (profile_chunk w s e skip cap tm).tx_types.map fun p => (p.1, reconTx p.2) := by
      show (profile_chunk w s e skip cap tm).tx_types.foldl
          (fun m p => aggUpdate m p.1 p.2) MergeAcc.init.agg = _
      rw [foldl_aggUpdate_id _ MergeAcc.init.agg wfk (by intro k hk; simp [MergeAcc.init])]
      simp [MergeAcc.init]
    rw [hagg]
    rw [sortWith_sorted_id keyLe _ (keyLe_map_chain _ _ wfs)]
    rw [List.map_map]
    have h2 : (profile_chunk w s e skip cap tm).tx_types.map
          ((fun p : String × TxStats => (p.1, mkTypeEntry p.2))
            ∘ fun p : String × TypeEntry => (p.1, reconTx p.2))
        = (profile_chunk w s e skip cap tm).tx_types.map fun p => p := by
      refine List.map_eq_map_iff.mpr ?_
      intro p hp
      obtain ⟨hc, hv⟩ := wfe p hp
      show (p.1, mkTypeEntry (reconTx p.2)) = p
      rw [mkTypeEntry_recon p.2 hc hv]
    rw [h2, List.map_id']
  · have htc : (mergeOne MergeAcc.init (profile_chunk w s e skip cap tm)).top_contracts
        = (profile_chunk w s e skip cap tm).top_contracts := by
      show (profile_chunk w s e skip cap tm).top_contracts.foldl
          (fun m p => counterAdd m p.1 p.2) MergeAcc.init.top_contracts = _
      rw [foldl_counterAdd_id _ MergeAcc.init.top_contracts wfck
        (by intro k hk; simp [MergeAcc.init])]
      simp [MergeAcc.init]
    rw [htc, sortWith_sorted_id cntLe _ wfcs, List.take_all_of_le wfcl]
  · have htt : (mergeOne MergeAcc.init (profile_chunk w s e skip cap tm)).top_tokens
        = (profile_chunk w s e skip cap tm).top_tokens := by
      show (profile_chunk w s e skip cap tm).top_tokens.foldl
          (fun m p => counterAdd m p.1 p.2) MergeAcc.init.top_tokens = _
      rw [foldl_counterAdd_id _ MergeAcc.init.top_tokens wftk
        (by intro k hk; simp [MergeAcc.init])]
      simp [MergeAcc.init]
    rw [htt, sortWith_sorted_id cntLe _ wfts, List.take_all_of_le wftl]

/-- Witness for C7 (amended): a concrete one-block single-chunk run has the
same merged and single-chunk total transaction count. -/
theorem claim_C7_witness :
    (profile_range worldDropNone 3 3 true none 50 "none").total_tx
      = (profile_chunk worldDropNone 3 3 true none "none").total_tx :=
  (claim_C7_amended worldDropNone 3 3 50 true none "none" (by omega)
    (by omega)).2.2.2.1

/-- Counterexample to C7 as stated: even for a single chunk the overall
summary's unique-sender count is the sentinel -1, not the chunk's count. -/
theorem claim_C7_counterexample :
    (profile_range worldDropNone 3 3 true none 50 "none").unique_senders
      ≠ (profile_chunk worldDropNone 3 3 true none "none").unique_senders := by
  decide

def joinRanges : List (Nat × Nat) → List Nat
  | [] => []
  | p :: rest => blockNums p.1 p.2 ++ joinRanges rest

theorem chunkList_cover (cs : Nat) (hcs : 1 ≤ cs) (e : Nat) :
    ∀ fuel cur, e + 1 - cur ≤ fuel →
    joinRanges (chunkList fuel cur e cs) = blockNums cur e := by
  intro fuel
  induction fuel with
  | zero =>
    intro cur h
    have : e + 1 - cur = 0 := by omega
    show joinRanges [] = List.range' cur (e + 1 - cur)
    rw [this]
    rfl
  | succ f ih =>
    intro cur h
    by_cases hce : cur ≤ e
    · rw [chunkList, if_pos hce]
      have hce1 : cur ≤ min (cur + cs - 1) e := by omega
      have hce2 : min (cur + cs - 1) e ≤ e := by omega
      rw [joinRanges, ih (min (cur + cs - 1) e + 1) (by omega)]
      show blockNums cur (min (cur + cs - 1) e)
          ++ blockNums (min (cur + cs - 1) e + 1) e = blockNums cur e
      unfold blockNums
      have h1 : e + 1 - (min (cur + cs - 1) e + 1) = e - min (cur + cs - 1) e := by omega
      rw [h1]
      have h2 : min (cur + cs - 1) e + 1 = cur + (min (cur + cs - 1) e + 1 - cur) := by
        omega
      nth_rewrite 2 [h2]
      rw [List.range'_append_1]
      congr 1
      omega
    · rw [chunkList, if_neg hce]
      show joinRanges [] = List.range' cur (e + 1 - cur)
      have : e + 1 - cur = 0 := by omega
      rw [this]
      rfl

theorem rangeChunks_cover (s e cs : Nat) (hcs : 1 ≤ cs) :
    joinRanges (rangeChunks s e cs) = blockNums s e :=
  chunkList_cover cs hcs e (e + 1 - s) s (Nat.le_refl _)

theorem cat_zero_of_count_zero (w : World) (skip : Bool) (k : String) (l : List Tx)
    (h : catCount w skip k l = 0) :
    catGas w skip k l = 0 ∧ catPrice w skip k l = 0 ∧ catValue w skip k l = 0 := by
  unfold catCount at h
  rw [List.countP_eq_zero] at h
  have hz : ∀ tx ∈ l, ¬(catOf w skip tx = some k) := by
    intro tx htx
    have := h tx htx
    simpa using this
  refine ⟨?_, ?_, ?_⟩ <;>
    · simp only [catGas, catPrice, catValue]
      rw [List.sum_eq_zero]
      intro x hx
      rcases List.mem_map.mp hx with ⟨tx, htx, rfl⟩
      rw [if_neg (hz tx htx)]

theorem catValue_le_valSum (w : World) (skip : Bool) (k : String) (l : List Tx) :
    catValue w skip k l ≤ valSum w l := by
  unfold catValue valSum
  refine List.sum_le_sum ?_
  intro tx htx
  cases hr : w.getReceipt tx.hash with
  | error e =>
    have : catOf w skip tx = none := by simp [catOf, hr]
    simp [this]
  | ok r =>
    have : rOk w tx = true := by simp [rOk, hr]
    rw [this]
    split <;> simp

theorem mem_iff_pos_count (m : List (String × TxStats))
    (hpos : ∀ p ∈ m, 0 < p.2.count) (k : String) :
    k ∈ m.map Prod.fst ↔ 0 < (statsGet m k).count := by
  constructor
  · intro h
    have hl := alookup_get_of_mem h
    exact hpos _ (alookup_mem hl)
  · intro h
    by_contra hc
    rw [show statsGet m k = TxStats.zero from by
      simp [statsGet, (alookup_eq_none m k).mpr hc]] at h
    simp [TxStats.zero] at h

theorem aggUpdate_get (m : List (String × TxStats)) (k0 : String) (en : TypeEntry)
    (k : String) :
    statsGet (aggUpdate m k0 en) k
      = if k = k0 then (statsGet m k).plus (reconTx en) else statsGet m k := by
  induction m with
  | nil =>
    by_cases hk : k = k0
    · subst hk
      simp [aggUpdate, statsGet, alookup, TxStats.plus, TxStats.zero, reconTx]
    · have hk' : ¬k0 = k := fun h => hk h.symm
      simp [aggUpdate, statsGet, alookup, hk, hk']
  | cons q rest ih =>
    rw [aggUpdate]
    by_cases hq : q.1 = k0
    · rw [if_pos hq]
      by_cases hk : k = k0
      · subst hk
        simp [statsGet, alookup, hq, TxStats.plus, reconTx]
      · have hqk : ¬q.1 = k := fun hc => hk (hc ▸ hq)
        simp [statsGet, alookup, hqk, hk]
    · rw [if_neg hq]
      by_cases hqk : q.1 = k
      · have hk : ¬k = k0 := fun hc => hq (hqk.trans hc)
        simp [statsGet, alookup, hqk, hk]
      · simp only [statsGet, alookup, if_neg hqk]
        exact ih

theorem aggUpdate_mem (m : List (String × TxStats)) (k0 : String) (en : TypeEntry)
    (k : String) :
    k ∈ (aggUpdate m k0 en).map Prod.fst ↔ (k ∈ m.map Prod.fst ∨ k = k0) := by
  induction m with
  | nil => simp [aggUpdate, eq_comm]
  | cons q rest ih =>
    rw [aggUpdate]
    by_cases hq : q.1 = k0
    · rw [if_pos hq]
      subst hq
      simp only [List.map_cons, List.mem_cons]
      constructor
      · intro h
        exact Or.inl h
      · intro h
        rcases h with h | h
        · exact h
        · exact Or.inl (by rw [h])
    · rw [if_neg hq]
      simp only [List.map_cons, List.mem_cons, ih]
      tauto

theorem aggUpdate_nodup (m : List (String × TxStats)) (k0 : String) (en : TypeEntry)
    (hnd : (m.map Prod.fst).Nodup) : ((aggUpdate m k0 en).map Prod.fst).Nodup := by
  induction m with
  | nil => simp [aggUpdate]
  | cons q rest ih =>
    rw [aggUpdate]
    rw [List.map_cons, List.nodup_cons] at hnd
    by_cases hq : q.1 = k0
    · rw [if_pos hq]
      simpa using hnd
    · rw [if_neg hq]
      rw [List.map_cons, List.nodup_cons]
      refine ⟨?_, ih hnd.2⟩
      intro hcon
      rcases (aggUpdate_mem rest k0 en q.1).mp hcon with h | h
      · exact hnd.1 h
      · exact hq h

theorem aggUpdate_pos (m : List (String × TxStats)) (k0 : String) (en : TypeEntry)
    (hpos : ∀ p ∈ m, 0 < p.2.count) (hen : 0 < en.count) :
    ∀ p ∈ aggUpdate m k0 en, 0 < p.2.count := by
  induction m with
  | nil =>
    intro p hp
    rcases List.mem_singleton.mp hp with rfl
    simpa [reconTx] using hen
  | cons q rest ih =>
    intro p hp
    rw [aggUpdate] at hp
    by_cases hq : q.1 = k0
    · rw [if_pos hq] at hp
      rcases List.mem_cons.mp hp with rfl | hmem
      · have := hpos q (List.mem_cons_self _ _)
        simp only []
        omega
      · exact hpos p (List.mem_cons_of_mem _ hmem)
    · rw [if_neg hq] at hp
      rcases List.mem_cons.mp hp with rfl | hmem
      · exact hpos q (List.mem_cons_self _ _)
      · exact ih (fun x hx => hpos x (List.mem_cons_of_mem _ hx)) p hmem

theorem rhe_close (B R S : Nat) (hB : 0 < B)
    (h1 : 2 * R ≤ 2 * S + B) (h2 : 2 * S ≤ 2 * R + B) :
    rhe R B ≤ rhe S B + 1 ∧ rhe S B ≤ rhe R B + 1 := by
  obtain ⟨a1, a2⟩ := rhe_bounds R B hB
  obtain ⟨b1, b2⟩ := rhe_bounds S B hB
  constructor
  · by_contra h
    push_neg at h
    have hmul : (rhe S B + 2) * B ≤ rhe R B * B := Nat.mul_le_mul_right B (by omega)
    nlinarith
  · by_contra h
    push_neg at h
    have hmul : (rhe R B + 2) * B ≤ rhe S B * B := Nat.mul_le_mul_right B (by omega)
    nlinarith

/-- Per-category sums one chunk summary feeds into the merge loop. -/
def entryContrib (sm : Summary) (k : String) : TxStats :=
  match alookup sm.tx_types k with
  | some en => reconTx en
  | none => TxStats.zero

def sumRecon (L : List Summary) (k : String) : TxStats :=
  (L.map fun sm => entryContrib sm k).foldr TxStats.plus TxStats.zero

theorem foldl_aggUpdate_get (entries : List (String × TypeEntry)) :
    ∀ m, (entries.map Prod.fst).Nodup → ∀ k,
    statsGet (entries.foldl (fun m p => aggUpdate m p.1 p.2) m) k
      = TxStats.plus (statsGet m k)
          (match alookup entries k with
           | some en => reconTx en
           | none => TxStats.zero) := by
  induction entries with
  | nil =>
    intro m _ k
    show statsGet m k = _
    exact (TxStats.plus_zero _).symm
  | cons p rest ih =>
    obtain ⟨k0, en0⟩ := p
    intro m hnd k
    simp only [List.foldl_cons]
    rw [List.map_cons, List.nodup_cons] at hnd
    rw [ih (aggUpdate m k0 en0) hnd.2 k, aggUpdate_get]
    by_cases hk : k = k0
    · subst hk
      have hrest : alookup rest k = none := (alookup_eq_none rest k).mpr hnd.1
      rw [if_pos rfl]
      show TxStats.plus ((statsGet m k).plus (reconTx en0)) _
        = TxStats.plus (statsGet m k)
            (match alookup ((k, en0) :: rest) k with
             | some en => reconTx en
             | none => TxStats.zero)
      rw [hrest]
      show ((statsGet m k).plus (reconTx en0)).plus TxStats.zero
        = TxStats.plus (statsGet m k)
            (match alookup ((k, en0) :: rest) k with
             | some en => reconTx en
             | none => TxStats.zero)
      rw [TxStats.plus_zero]
      have hl : alookup ((k, en0) :: rest) k = some en0 := by
        rw [alookup, if_pos rfl]
      rw [hl]
    · rw [if_neg hk]
      have hl : alookup ((k0, en0) :: rest) k = alookup rest k := by
        rw [alookup, if_neg (fun hc => hk hc.symm)]
      rw [hl]

theorem foldl_aggUpdate_nodup2 (entries : List (String × TypeEntry)) :
    ∀ m, ((m.map Prod.fst).Nodup) →
    (((entries.foldl (fun m p => aggUpdate m p.1 p.2) m).map Prod.fst).Nodup) := by
  induction entries with
  | nil => exact fun m h => h
  | cons p rest ih =>
    intro m hnd
    simp only [List.foldl_cons]
    exact ih _ (aggUpdate_nodup m p.1 p.2 hnd)

theorem foldl_aggUpdate_pos2 (entries : List (String × TypeEntry)) :
    ∀ m, (∀ p ∈ m, 0 < p.2.count) → (∀ q ∈ entries, 0 < q.2.count) →
    ∀ p ∈ entries.foldl (fun m p => aggUpdate m p.1 p.2) m, 0 < p.2.count := by
  induction entries with
  | nil => exact fun m h _ => h
  | cons q rest ih =>
    intro m hm hq
    simp only [List.foldl_cons]
    exact ih _ (aggUpdate_pos m q.1 q.2 hm (hq q (List.mem_cons_self _ _)))
      fun x hx => hq x (List.mem_cons_of_mem _ hx)

theorem foldl_mergeOne_obs (L : List Summary)
    (hL : ∀ c ∈ L, (c.tx_types.map Prod.fst).Nodup ∧ ∀ q ∈ c.tx_types, 0 < q.2.count) :
    ∀ acc : MergeAcc,
    ((L.foldl mergeOne acc).total_tx = acc.total_tx + (L.map Summary.total_tx).sum)
    ∧ ((L.foldl mergeOne acc).total_eth
        = acc.total_eth + (L.map Summary.total_eth_wei).sum)
    ∧ (∀ k, statsGet (L.foldl mergeOne acc).agg k
        = TxStats.plus (statsGet acc.agg k) (sumRecon L k))
    ∧ ((acc.agg.map Prod.fst).Nodup → (((L.foldl mergeOne acc).agg.map Prod.fst).Nodup))
    ∧ ((∀ p ∈ acc.agg, 0 < p.2.count) → ∀ p ∈ (L.foldl mergeOne acc).agg, 0 < p.2.count) := by
  induction L with
  | nil =>
    intro acc
    refine ⟨by simp, by simp, ?_, fun h => h, fun h => h⟩
    intro k
    exact (TxStats.plus_zero _).symm
  | cons c rest ih =>
    intro acc
    simp only [List.foldl_cons]
    have hc := hL c (List.mem_cons_self _ _)
    obtain ⟨i1, i2, i3, i4, i5⟩ :=
      ih (fun x hx => hL x (List.mem_cons_of_mem _ hx)) (mergeOne acc c)
    refine ⟨?_, ?_, ?_, ?_, ?_⟩
    · rw [i1]
      show acc.total_tx + c.total_tx + _ = _
      simp only [List.map_cons, List.sum_cons]
      omega
    · rw [i2]
      show acc.total_eth + c.total_eth_wei + _ = _
      simp only [List.map_cons, List.sum_cons]
      omega
    · intro k
      rw [i3 k]
      have hm : statsGet (mergeOne acc c).agg k
          = TxStats.plus (statsGet acc.agg k) (entryContrib c k) := by
        show statsGet (c.tx_types.foldl (fun m p => aggUpdate m p.1 p.2) acc.agg) k = _
        rw [foldl_aggUpdate_get c.tx_types acc.agg hc.1 k]
        rfl
      rw [hm, TxStats.plus_assoc]
      rfl
    · intro hnd
      refine i4 ?_
      show (((c.tx_types.foldl (fun m p => aggUpdate m p.1 p.2) acc.agg)).map Prod.fst).Nodup
      exact foldl_aggUpdate_nodup2 c.tx_types acc.agg hnd
    · intro hpos
      refine i5 ?_
      show ∀ p ∈ c.tx_types.foldl (fun m p => aggUpdate m p.1 p.2) acc.agg, 0 < p.2.count
      exact foldl_aggUpdate_pos2 c.tx_types acc.agg hpos hc.2

/-- What one chunk of blocks `[p.1, p.2]` contributes to the merged category
sums, after its summary is rebuilt by `aggUpdate`. -/
def chunkContrib (w : World) (skip : Bool) (k : String) (p : Nat × Nat) : TxStats :=
  if 0 < catCount w skip k (rangeTxs w p.1 p.2)
  then reconTx (mkTypeEntry (catStats w skip k (rangeTxs w p.1 p.2)))
  else TxStats.zero

theorem entryContrib_chunk (w : World) (skip : Bool) (tm : String) (k : String)
    (a b : Nat) :
    entryContrib (profile_chunk w a b skip none tm) k
      = chunkContrib w skip k (a, b) := by
  unfold entryContrib chunkContrib
  rw [profile_chunk_types_lookup]
  by_cases h : 0 < catCount w skip k (rangeTxs w a b)
  · rw [if_pos h, if_pos h]
  · rw [if_neg h, if_neg h]

theorem sumRecon_chunks (w : World) (skip : Bool) (tm : String) (k : String)
    (chunks : List (Nat × Nat)) :
    sumRecon (chunks.map fun p => profile_chunk w p.1 p.2 skip none tm) k
      = (chunks.map (chunkContrib w skip k)).foldr TxStats.plus TxStats.zero := by
  unfold sumRecon
  rw [List.map_map]
  congr 1
  refine List.map_eq_map_iff.mpr ?_
  intro p _
  show entryContrib (profile_chunk w p.1 p.2 skip none tm) k = _
  exact entryContrib_chunk w skip tm k p.1 p.2

/-- A single chunk's reconstructed contribution: counts and gas are exact at
every magnitude, and the gas-price sum is recovered from the rounded average
within half a quantum per transaction. -/
theorem chunkContrib_facts (w : World) (skip : Bool) (k : String) (a b : Nat) :
    (chunkContrib w skip k (a, b)).count = catCount w skip k (rangeTxs w a b)
    ∧ (chunkContrib w skip k (a, b)).gas_used = catGas w skip k (rangeTxs w a b)
    ∧ 2 * (chunkContrib w skip k (a, b)).gas_price_wei_sum
        ≤ 2 * catPrice w skip k (rangeTxs w a b)
          + 100000 * catCount w skip k (rangeTxs w a b)
    ∧ 2 * catPrice w skip k (rangeTxs w a b)
        ≤ 2 * (chunkContrib w skip k (a, b)).gas_price_wei_sum
          + 100000 * catCount w skip k (rangeTxs w a b) := by
  unfold chunkContrib
  by_cases hpos : 0 < catCount w skip k (rangeTxs w a b)
  · rw [if_pos hpos]
    have hmk : mkTypeEntry (catStats w skip k (rangeTxs w a b))
        = ⟨catCount w skip k (rangeTxs w a b), catGas w skip k (rangeTxs w a b),
           rhe (catPrice w skip k (rangeTxs w a b))
             (catCount w skip k (rangeTxs w a b) * 100000),
           decRound40 (catValue w skip k (rangeTxs w a b))⟩ := by
      unfold mkTypeEntry avgGasQ
      simp only [catStats]
      rw [if_neg (by omega)]
    rw [hmk]
    unfold reconTx
    refine ⟨rfl, rfl, ?_, ?_⟩
    · have hBpos : 0 < catCount w skip k (rangeTxs w a b) * 100000 :=
        Nat.mul_pos hpos (by norm_num)
      obtain ⟨hb1, _⟩ := rhe_bounds (catPrice w skip k (rangeTxs w a b))
        (catCount w skip k (rangeTxs w a b) * 100000) hBpos
      nlinarith [hb1]
    · have hBpos : 0 < catCount w skip k (rangeTxs w a b) * 100000 :=
        Nat.mul_pos hpos (by norm_num)
      obtain ⟨_, hb2⟩ := rhe_bounds (catPrice w skip k (rangeTxs w a b))
        (catCount w skip k (rangeTxs w a b) * 100000) hBpos
      nlinarith [hb2]
  · rw [if_neg hpos]
    obtain ⟨hg, hp, hv⟩ :=
      cat_zero_of_count_zero w skip k (rangeTxs w a b) (by omega)
    have hc0 : catCount w skip k (rangeTxs w a b) = 0 := by omega
    refine ⟨?_, ?_, ?_, ?_⟩
    · simp [TxStats.zero, hc0]
    · simp [TxStats.zero, hg]
    · simp [TxStats.zero, hp]
    · simp [TxStats.zero, hp]

/-- The chunk's value contribution is exact while the chunk's category value
sum stays under the 40-digit Decimal cap. -/
theorem chunkContrib_val (w : World) (skip : Bool) (k : String) (a b : Nat)
    (hbound : catValue w skip k (rangeTxs w a b) < DECIMAL_CAP) :
    (chunkContrib w skip k (a, b)).eth_value_wei_sum
      = catValue w skip k (rangeTxs w a b) := by
  unfold chunkContrib
  by_cases hpos : 0 < catCount w skip k (rangeTxs w a b)
  · rw [if_pos hpos]
    have hmk : mkTypeEntry (catStats w skip k (rangeTxs w a b))
        = ⟨catCount w skip k (rangeTxs w a b), catGas w skip k (rangeTxs w a b),
           rhe (catPrice w skip k (rangeTxs w a b))
             (catCount w skip k (rangeTxs w a b) * 100000),
           decRound40 (catValue w skip k (rangeTxs w a b))⟩ := by
      unfold mkTypeEntry avgGasQ
      simp only [catStats]
      rw [if_neg (by omega)]
    rw [hmk]
    unfold reconTx
    exact decRound40_id _ hbound
  · rw [if_neg hpos]
    obtain ⟨_, _, hv⟩ :=
      cat_zero_of_count_zero w skip k (rangeTxs w a b) (by omega)
    simp [TxStats.zero, hv]

theorem chunksSum_facts (w : World) (skip : Bool) (k : String) :
    ∀ chunks : List (Nat × Nat),
    ((chunks.map (chunkContrib w skip k)).foldr TxStats.plus TxStats.zero).count
        = catCount w skip k (joinTxs w (joinRanges chunks))
    ∧ ((chunks.map (chunkContrib w skip k)).foldr TxStats.plus TxStats.zero).gas_used
        = catGas w skip k (joinTxs w (joinRanges chunks))
    ∧ 2 * ((chunks.map (chunkContrib w skip k)).foldr
          TxStats.plus TxStats.zero).gas_price_wei_sum
        ≤ 2 * catPrice w skip k (joinTxs w (joinRanges chunks))
          + 100000 * catCount w skip k (joinTxs w (joinRanges chunks))
    ∧ 2 * catPrice w skip k (joinTxs w (joinRanges chunks))
        ≤ 2 * ((chunks.map (chunkContrib w skip k)).foldr
              TxStats.plus TxStats.zero).gas_price_wei_sum
          + 100000 * catCount w skip k (joinTxs w (joinRanges chunks)) := by
  intro chunks
  induction chunks with
  | nil =>
    refine ⟨rfl, rfl, ?_, ?_⟩ <;>
      simp [joinRanges, joinTxs, catCount, catPrice, TxStats.zero]
  | cons p rest ih =>
    have hJ : joinTxs w (joinRanges (p :: rest))
        = rangeTxs w p.1 p.2 ++ joinTxs w (joinRanges rest) := by
      show joinTxs w (blockNums p.1 p.2 ++ joinRanges rest) = _
      rw [joinTxs_append]
      rfl
    obtain ⟨i1, i2, i4, i5⟩ := ih
    obtain ⟨h1, h2, h4, h5⟩ := chunkContrib_facts w skip k p.1 p.2
    have hCC : catCount w skip k (joinTxs w (joinRanges (p :: rest)))
        = catCount w skip k (rangeTxs w p.1 p.2)
          + catCount w skip k (joinTxs w (joinRanges rest)) := by
      rw [hJ, catCount_append]
    have hCS : catStats w skip k (joinTxs w (joinRanges (p :: rest)))
        = TxStats.plus (catStats w skip k (rangeTxs w p.1 p.2))
            (catStats w skip k (joinTxs w (joinRanges rest))) := by
      rw [hJ, catStats_append]
    have hCG : catGas w skip k (joinTxs w (joinRanges (p :: rest)))
        = catGas w skip k (rangeTxs w p.1 p.2)
          + catGas w skip k (joinTxs w (joinRanges rest)) :=
      congrArg TxStats.gas_used hCS
    have hCP : catPrice w skip k (joinTxs w (joinRanges (p :: rest)))
        = catPrice w skip k (rangeTxs w p.1 p.2)
          + catPrice w skip k (joinTxs w (joinRanges rest)) :=
      congrArg TxStats.gas_price_wei_sum hCS
    simp only [List.map_cons, List.foldr_cons]
    refine ⟨?_, ?_, ?_, ?_⟩
    · show (chunkContrib w skip k p).count
          + ((rest.map (chunkContrib w skip k)).foldr
              TxStats.plus TxStats.zero).count = _
      rw [hCC]
      have hp' : (chunkContrib w skip k p).count
          = catCount w skip k (rangeTxs w p.1 p.2) := h1
      omega
    · show (chunkContrib w skip k p).gas_used
          + ((rest.map (chunkContrib w skip k)).foldr
              TxStats.plus TxStats.zero).gas_used = _
      rw [hCG]
      have hp' : (chunkContrib w skip k p).gas_used
          = catGas w skip k (rangeTxs w p.1 p.2) := h2
      omega
    · show 2 * ((chunkContrib w skip k p).gas_price_wei_sum
          + ((rest.map (chunkContrib w skip k)).foldr
              TxStats.plus TxStats.zero).gas_price_wei_sum) ≤ _
      rw [hCP, hCC]
      have hp4 : 2 * (chunkContrib w skip k p).gas_price_wei_sum
          ≤ 2 * catPrice w skip k (rangeTxs w p.1 p.2)
            + 100000 * catCount w skip k (rangeTxs w p.1 p.2) := h4
      omega
    · rw [hCP, hCC]
      show _ ≤ 2 * ((chunkContrib w skip k p).gas_price_wei_sum
          + ((rest.map (chunkContrib w skip k)).foldr
              TxStats.plus TxStats.zero).gas_price_wei_sum) + _
      have hp5 : 2 * catPrice w skip k (rangeTxs w p.1 p.2)
          ≤ 2 * (chunkContrib w skip k p).gas_price_wei_sum
            + 100000 * catCount w skip k (rangeTxs w p.1 p.2) := h5
      omega

theorem chunksSum_val (w : World) (skip : Bool) (k : String) :
    ∀ chunks : List (Nat × Nat),
    valSum w (joinTxs w (joinRanges chunks)) < DECIMAL_CAP →
    ((chunks.map (chunkContrib w skip k)).foldr
          TxStats.plus TxStats.zero).eth_value_wei_sum
        = catValue w skip k (joinTxs w (joinRanges chunks)) := by
  intro chunks
  induction chunks with
  | nil =>
    intro _
    rfl
  | cons p rest ih =>
    intro hcap
    have hJ : joinTxs w (joinRanges (p :: rest))
        = rangeTxs w p.1 p.2 ++ joinTxs w (joinRanges rest) := by
      show joinTxs w (blockNums p.1 p.2 ++ joinRanges rest) = _
      rw [joinTxs_append]
      rfl
    rw [hJ] at hcap
    rw [valSum_append] at hcap
    have hcapH : catValue w skip k (rangeTxs w p.1 p.2) < DECIMAL_CAP := by
      have := catValue_le_valSum w skip k (rangeTxs w p.1 p.2)
      omega
    have h3 := chunkContrib_val w skip k p.1 p.2 hcapH
    have i3 := ih (by omega)
    have hCV : catValue w skip k (joinTxs w (joinRanges (p :: rest)))
        = catValue w skip k (rangeTxs w p.1 p.2)
          + catValue w skip k (joinTxs w (joinRanges rest)) := by
      rw [hJ]
      have hCS := catStats_append w skip k (rangeTxs w p.1 p.2)
        (joinTxs w (joinRanges rest))
      exact congrArg TxStats.eth_value_wei_sum hCS
    simp only [List.map_cons, List.foldr_cons]
    show (chunkContrib w skip k p).eth_value_wei_sum
        + ((rest.map (chunkContrib w skip k)).foldr
            TxStats.plus TxStats.zero).eth_value_wei_sum = _
    rw [hCV]
    have hp' : (chunkContrib w skip k p).eth_value_wei_sum
        = catValue w skip k (rangeTxs w p.1 p.2) := h3
    omega

theorem chunkTotals_tx (w : World) (skip : Bool) (tm : String) :
    ∀ chunks : List (Nat × Nat),
    ((chunks.map fun p => profile_chunk w p.1 p.2 skip none tm).map
        Summary.total_tx).sum = okCount w (joinTxs w (joinRanges chunks)) := by
  intro chunks
  induction chunks with
  | nil => rfl
  | cons p rest ih =>
    have hJ : joinTxs w (joinRanges (p :: rest))
        = rangeTxs w p.1 p.2 ++ joinTxs w (joinRanges rest) := by
      show joinTxs w (blockNums p.1 p.2 ++ joinRanges rest) = _
      rw [joinTxs_append]
      rfl
    have hhead_tx : (profile_chunk w p.1 p.2 skip none tm).total_tx
        = okCount w (rangeTxs w p.1 p.2) := (chunkRun_obs w p.1 p.2 skip).1
    simp only [List.map_cons, List.sum_cons]
    rw [hhead_tx, ih, hJ, okCount_append]

theorem chunkTotals_eth (w : World) (skip : Bool) (tm : String) :
    ∀ chunks : List (Nat × Nat),
    valSum w (joinTxs w (joinRanges chunks)) < DECIMAL_CAP →
    ((chunks.map fun p => profile_chunk w p.1 p.2 skip none tm).map
        Summary.total_eth_wei).sum = valSum w (joinTxs w (joinRanges chunks)) := by
  intro chunks
  induction chunks with
  | nil =>
    intro _
    rfl
  | cons p rest ih =>
    intro hcap
    have hJ : joinTxs w (joinRanges (p :: rest))
        = rangeTxs w p.1 p.2 ++ joinTxs w (joinRanges rest) := by
      show joinTxs w (blockNums p.1 p.2 ++ joinRanges rest) = _
      rw [joinTxs_append]
      rfl
    rw [hJ] at hcap
    rw [valSum_append] at hcap
    have i2 := ih (by omega)
    have hhead_eth : (profile_chunk w p.1 p.2 skip none tm).total_eth_wei
        = valSum w (rangeTxs w p.1 p.2) := by
      show decRound40 (chunkRun w p.1 p.2 skip none).total_eth = _
      rw [(chunkRun_obs w p.1 p.2 skip).2.1]
      exact decRound40_id _ (by omega)
    simp only [List.map_cons, List.sum_cons]
    rw [hhead_eth, i2, hJ, valSum_append]

/-- The `tx_types` entry a summary reports for category `k` (all-zero when
the category is absent). -/
def entryOf (sm : Summary) (k : String) : TypeEntry :=
  (alookup sm.tx_types k).getD ⟨0, 0, 0, 0⟩

/-- The merge accumulator `profile_range` has built after folding every chunk
summary. -/
def mergedAcc (w : World) (s e cs : Nat) (skip : Bool) (tm : String) : MergeAcc :=
  ((rangeChunks s e cs).map fun p => profile_chunk w p.1 p.2 skip none tm).foldl
    mergeOne MergeAcc.init

theorem mergedAcc_obs (w : World) (s e cs : Nat) (skip : Bool) (tm : String)
    (hcs : 1 ≤ cs) :
    (mergedAcc w s e cs skip tm).total_tx = okCount w (rangeTxs w s e)
    ∧ (∀ k, statsGet (mergedAcc w s e cs skip tm).agg k
        = ((rangeChunks s e cs).map (chunkContrib w skip k)).foldr
            TxStats.plus TxStats.zero)
    ∧ ((mergedAcc w s e cs skip tm).agg.map Prod.fst).Nodup
    ∧ (∀ p ∈ (mergedAcc w s e cs skip tm).agg, 0 < p.2.count) := by
  have hcover := rangeChunks_cover s e cs hcs
  have hJoin : joinTxs w (joinRanges (rangeChunks s e cs)) = rangeTxs w s e := by
    rw [hcover]
    rfl
  have hL : ∀ c ∈ (rangeChunks s e cs).map
      (fun p => profile_chunk w p.1 p.2 skip none tm),
      (c.tx_types.map Prod.fst).Nodup ∧ ∀ q ∈ c.tx_types, 0 < q.2.count := by
    intro c hc
    rcases List.mem_map.mp hc with ⟨p, _, rfl⟩
    obtain ⟨w1, _, w3, _⟩ := profile_chunk_summary_wf w p.1 p.2 skip none tm
    exact ⟨w1, fun q hq => (w3 q hq).1⟩
  obtain ⟨m1, m2, m3, m4, m5⟩ := foldl_mergeOne_obs _ hL MergeAcc.init
  have t1 := chunkTotals_tx w skip tm (rangeChunks s e cs)
  refine ⟨?_, ?_, ?_, ?_⟩
  · show (((rangeChunks s e cs).map fun p => profile_chunk w p.1 p.2 skip none tm).foldl
        mergeOne MergeAcc.init).total_tx = _
    rw [m1]
    show 0 + _ = _
    rw [Nat.zero_add, t1, hJoin]
  · intro k
    show statsGet (((rangeChunks s e cs).map
        fun p => profile_chunk w p.1 p.2 skip none tm).foldl
        mergeOne MergeAcc.init).agg k = _
    rw [m3 k]
    show TxStats.plus (statsGet [] k) _ = _
    have hz : statsGet ([] : List (String × TxStats)) k = TxStats.zero := rfl
    rw [hz, TxStats.zero_plus, sumRecon_chunks]
  · exact m4 List.nodup_nil
  · exact m5 (fun p hp => absurd hp (List.not_mem_nil p))

theorem mergedAcc_eth (w : World) (s e cs : Nat) (skip : Bool) (tm : String)
    (hcs : 1 ≤ cs) (hval : valSum w (rangeTxs w s e) < DECIMAL_CAP) :
    (mergedAcc w s e cs skip tm).total_eth = valSum w (rangeTxs w s e) := by
  have hcover := rangeChunks_cover s e cs hcs
  have hJoin : joinTxs w (joinRanges (rangeChunks s e cs)) = rangeTxs w s e := by
    rw [hcover]
    rfl
  have hval' : valSum w (joinTxs w (joinRanges (rangeChunks s e cs))) < DECIMAL_CAP := by
    rw [hJoin]
    exact hval
  have hL : ∀ c ∈ (rangeChunks s e cs).map
      (fun p => profile_chunk w p.1 p.2 skip none tm),
      (c.tx_types.map Prod.fst).Nodup ∧ ∀ q ∈ c.tx_types, 0 < q.2.count := by
    intro c hc
    rcases List.mem_map.mp hc with ⟨p, _, rfl⟩
    obtain ⟨w1, _, w3, _⟩ := profile_chunk_summary_wf w p.1 p.2 skip none tm
    exact ⟨w1, fun q hq => (w3 q hq).1⟩
  obtain ⟨_, m2, _⟩ := foldl_mergeOne_obs _ hL MergeAcc.init
  have t2 := chunkTotals_eth w skip tm (rangeChunks s e cs) hval'
  show (((rangeChunks s e cs).map fun p => profile_chunk w p.1 p.2 skip none tm).foldl
      mergeOne MergeAcc.init).total_eth = _
  rw [m2]
  show 0 + _ = _
  rw [Nat.zero_add, t2, hJoin]

theorem profile_range_types_lookup (w : World) (s e cs : Nat) (skip : Bool)
    (tm : String) (hcs : 1 ≤ cs) (k : String) :
    alookup (profile_range w s e skip none cs tm).tx_types k
      = if 0 < catCount w skip k (rangeTxs w s e)
        then some (mkTypeEntry (statsGet (mergedAcc w s e cs skip tm).agg k))
        else none := by
  obtain ⟨a1, a3, a4, a5⟩ := mergedAcc_obs w s e cs skip tm hcs
  have hcover := rangeChunks_cover s e cs hcs
  have hJoin : joinTxs w (joinRanges (rangeChunks s e cs)) = rangeTxs w s e := by
    rw [hcover]
    rfl
  obtain ⟨f1, _⟩ := chunksSum_facts w skip k (rangeChunks s e cs)
  have hcnt : (statsGet (mergedAcc w s e cs skip tm).agg k).count
      = catCount w skip k (rangeTxs w s e) := by
    rw [a3 k, f1, hJoin]
  show alookup ((sortWith keyLe (mergedAcc w s e cs skip tm).agg).map
      fun p => (p.1, mkTypeEntry p.2)) k = _
  rw [alookup_map_val]
  have hnd' : ((sortWith keyLe (mergedAcc w s e cs skip tm).agg).map Prod.fst).Nodup :=
    (((sortWith_perm keyLe _).map Prod.fst).nodup_iff).mpr a4
  rw [alookup_perm (sortWith_perm keyLe _) hnd' k]
  by_cases hcc : 0 < catCount w skip k (rangeTxs w s e)
  · rw [if_pos hcc]
    have hmem : k ∈ (mergedAcc w s e cs skip tm).agg.map Prod.fst :=
      (mem_iff_pos_count _ a5 k).mpr (by rw [hcnt]; exact hcc)
    rw [alookup_get_of_mem hmem]
    rfl
  · rw [if_neg hcc]
    have hnm : k ∉ (mergedAcc w s e cs skip tm).agg.map Prod.fst := by
      intro hm
      have := (mem_iff_pos_count _ a5 k).mp hm
      rw [hcnt] at this
      exact hcc this
    rw [(alookup_eq_none _ k).mpr hnm]
    rfl

/-- Claim C1 as amended: for every chunked partition of a block range
(chunk_size ≥ 1, no transaction cap), the merged overall summary of
`profile_range` agrees with the single-chunk `profile_chunk` summary
unconditionally in the total transaction count and in every category's
count and gas-used sum, and each category's quantized average gas price
(units of 0.0001 gwei) agrees within one quantization unit in both
directions; the total and per-category value sums agree exactly provided the
range's total transferred value stays below the 40-significant-digit Decimal
cap 10^40 wei. -/
theorem claim_C1_amended (w : World) (s e cs : Nat) (skip : Bool) (tm : String)
    (hcs : 1 ≤ cs) :
    (profile_range w s e skip none cs tm).total_tx
        = (profile_chunk w s e skip none tm).total_tx
    ∧ (∀ k : String,
        (entryOf (profile_range w s e skip none cs tm) k).count
            = (entryOf (profile_chunk w s e skip none tm) k).count
        ∧ (entryOf (profile_range w s e skip none cs tm) k).gas_used
            = (entryOf (profile_chunk w s e skip none tm) k).gas_used
        ∧ (entryOf (profile_range w s e skip none cs tm) k).avg_gas_price_q
            ≤ (entryOf (profile_chunk w s e skip none tm) k).avg_gas_price_q + 1
        ∧ (entryOf (profile_chunk w s e skip none tm) k).avg_gas_price_q
            ≤ (entryOf (profile_range w s e skip none cs tm) k).avg_gas_price_q
              + 1)
    ∧ (valSum w (rangeTxs w s e) < DECIMAL_CAP →
        (profile_range w s e skip none cs tm).total_eth_wei
            = (profile_chunk w s e skip none tm).total_eth_wei
        ∧ ∀ k : String,
            (entryOf (profile_range w s e skip none cs tm) k).eth_value_wei
              = (entryOf (profile_chunk w s e skip none tm) k).eth_value_wei) := by
  obtain ⟨a1, a3, a4, a5⟩ := mergedAcc_obs w s e cs skip tm hcs
  have hcover := rangeChunks_cover s e cs hcs
  have hJoin : joinTxs w (joinRanges (rangeChunks s e cs)) = rangeTxs w s e := by
    rw [hcover]
    rfl
  have hch_tx : (profile_chunk w s e skip none tm).total_tx
      = okCount w (rangeTxs w s e) := (chunkRun_obs w s e skip).1
  refine ⟨?_, ?_, ?_⟩
  · show (mergedAcc w s e cs skip tm).total_tx = _
    rw [a1, hch_tx]
  · intro k
    have hlook_ov := profile_range_types_lookup w s e cs skip tm hcs k
    have hlook_ch := profile_chunk_types_lookup w s e skip tm k
    obtain ⟨f1, f2, f4, f5⟩ := chunksSum_facts w skip k (rangeChunks s e cs)
    rw [hJoin] at f1 f2 f4 f5
    rw [← a3 k] at f1 f2 f4 f5
    by_cases hcc : 0 < catCount w skip k (rangeTxs w s e)
    · simp only [entryOf, hlook_ov, hlook_ch, if_pos hcc, Option.getD_some,
        mkTypeEntry, catStats]
      have hC0 : ¬(catCount w skip k (rangeTxs w s e) = 0) := by omega
      have hB : 0 < catCount w skip k (rangeTxs w s e) * 100000 :=
        Nat.mul_pos hcc (by norm_num)
      have h1' : 2 * (statsGet (mergedAcc w s e cs skip tm).agg k).gas_price_wei_sum
          ≤ 2 * catPrice w skip k (rangeTxs w s e)
            + catCount w skip k (rangeTxs w s e) * 100000 := by omega
      have h2' : 2 * catPrice w skip k (rangeTxs w s e)
          ≤ 2 * (statsGet (mergedAcc w s e cs skip tm).agg k).gas_price_wei_sum
            + catCount w skip k (rangeTxs w s e) * 100000 := by omega
      obtain ⟨hr1, hr2⟩ := rhe_close (catCount w skip k (rangeTxs w s e) * 100000)
        (statsGet (mergedAcc w s e cs skip tm).agg k).gas_price_wei_sum
        (catPrice w skip k (rangeTxs w s e)) hB h1' h2'
      refine ⟨f1, f2, ?_, ?_⟩
      · show avgGasQ (statsGet (mergedAcc w s e cs skip tm).agg k).gas_price_wei_sum
            (statsGet (mergedAcc w s e cs skip tm).agg k).count
          ≤ avgGasQ (catPrice w skip k (rangeTxs w s e))
            (catCount w skip k (rangeTxs w s e)) + 1
        rw [f1]
        simp only [avgGasQ]
        rw [if_neg hC0, if_neg hC0]
        exact hr1
      · show avgGasQ (catPrice w skip k (rangeTxs w s e))
            (catCount w skip k (rangeTxs w s e))
          ≤ avgGasQ (statsGet (mergedAcc w s e cs skip tm).agg k).gas_price_wei_sum
            (statsGet (mergedAcc w s e cs skip tm).agg k).count + 1
        rw [f1]
        simp only [avgGasQ]
        rw [if_neg hC0, if_neg hC0]
        exact hr2
    · simp [entryOf, hlook_ov, hlook_ch, hcc]
  · intro hval
    have hval' : valSum w (joinTxs w (joinRanges (rangeChunks s e cs)))
        < DECIMAL_CAP := by
      rw [hJoin]
      exact hval
    have hch_eth : (profile_chunk w s e skip none tm).total_eth_wei
        = valSum w (rangeTxs w s e) := by
      show decRound40 (chunkRun w s e skip none).total_eth = _
      rw [(chunkRun_obs w s e skip).2.1]
      exact decRound40_id _ hval
    refine ⟨?_, ?_⟩
    · show decRound40 (mergedAcc w s e cs skip tm).total_eth = _
      rw [mergedAcc_eth w s e cs skip tm hcs hval, hch_eth]
      exact decRound40_id _ hval
    · intro k
      have hlook_ov := profile_range_types_lookup w s e cs skip tm hcs k
      have hlook_ch := profile_chunk_types_lookup w s e skip tm k
      have f3 := chunksSum_val w skip k (rangeChunks s e cs) hval'
      rw [hJoin] at f3
      rw [← a3 k] at f3
      by_cases hcc : 0 < catCount w skip k (rangeTxs w s e)
      · simp only [entryOf, hlook_ov, hlook_ch, if_pos hcc, Option.getD_some,
          mkTypeEntry, catStats]
        rw [f3]
      · simp [entryOf, hlook_ov, hlook_ch, hcc]

/-- Two blocks, one transaction each, whose values 10^40 + 5 overflow the
40-significant-digit Decimal context when summed per chunk. -/
def worldBigVal : World :=
  { trivialWorld with
    getBlock := fun n => ⟨n, 0, [⟨n, some "0xa", some "0xb", 1, 10 ^ 40 + 5⟩], 0⟩
    getReceipt := fun _ => Except.ok ⟨21000, []⟩ }

/-- Witness for C1 (amended): on a concrete 2-block range split into
one-block chunks the hypotheses hold, the counts, gas sums and average
bounds follow, and the value bound 10^40 is satisfied so the value sums
agree too. -/
theorem claim_C1_witness :
    1 ≤ 1
    ∧ valSum worldSixTx (rangeTxs worldSixTx 1 2) < DECIMAL_CAP
    ∧ ((profile_range worldSixTx 1 2 true none 1 "none").total_tx
          = (profile_chunk worldSixTx 1 2 true none "none").total_tx
      ∧ (∀ k : String,
          (entryOf (profile_range worldSixTx 1 2 true none 1 "none") k).count
              = (entryOf (profile_chunk worldSixTx 1 2 true none "none") k).count
          ∧ (entryOf (profile_range worldSixTx 1 2 true none 1 "none") k).gas_used
              = (entryOf (profile_chunk worldSixTx 1 2 true none "none") k).gas_used
          ∧ (entryOf (profile_range worldSixTx 1 2 true none 1 "none") k).avg_gas_price_q
              ≤ (entryOf (profile_chunk worldSixTx 1 2 true none "none") k).avg_gas_price_q
                + 1
          ∧ (entryOf (profile_chunk worldSixTx 1 2 true none "none") k).avg_gas_price_q
              ≤ (entryOf (profile_range worldSixTx 1 2 true none 1 "none") k).avg_gas_price_q
                + 1)
      ∧ (valSum worldSixTx (rangeTxs worldSixTx 1 2) < DECIMAL_CAP →
          (profile_range worldSixTx 1 2 true none 1 "none").total_eth_wei
              = (profile_chunk worldSixTx 1 2 true none "none").total_eth_wei
          ∧ ∀ k : String,
              (entryOf (profile_range worldSixTx 1 2 true none 1 "none") k).eth_value_wei
                = (entryOf (profile_chunk worldSixTx 1 2 true none "none") k).eth_value_wei)) :=
  ⟨by decide, by decide,
    claim_C1_amended worldSixTx 1 2 1 true "none" (by decide)⟩

/-- Counterexample to C1 as stated: with per-transaction values 10^40 + 5 the
40-digit Decimal context rounds each one-block chunk's value sum to 10^40, so
the merged total (2·10^40) differs from the single-chunk total
(2·10^40 + 10) — the value sums are not exactly equal for every partition. -/
theorem claim_C1_counterexample :
    (profile_range worldBigVal 1 2 true none 1 "none").total_eth_wei
      ≠ (profile_chunk worldBigVal 1 2 true none "none").total_eth_wei := by
  decide
